import Mathlib

/-!
Verification development for the zarr v3 chunked-array core:
`src/zarr/v3/codecs/batched_pipeline.py` and `src/zarr/v3/array.py`.
The pipeline and array engine are shallowly embedded as pure functions;
store I/O is rendered as an explicit effect trace over a key-value store
state.  Collaborator modules that are not part of the provided sources
(`zarr.v3.indexing`, `zarr.v3.common`, the codec base classes, the chunk
key encodings) are modelled from the specification and marked as such in
their doc comments.
-/

namespace Zarr

/-- Byte strings (`BytesLike`), modelled as lists of byte values. -/
abbrev Bytes := List Nat

/-- A multi-dimensional coordinate: one index per dimension. -/
abbrev Coord := List Nat

/-- A slice selection (`SliceSelection` from `zarr.v3.common`): one
half-open `(start, stop)` range per dimension. -/
abbrev SliceSelection := List (Nat × Nat)

/-- Per-chunk array spec (`zarr.v3.common.ArraySpec`): the chunk shape, a
dtype tag and the fill value.  Array elements are modelled as integers. -/
structure ArraySpec where
  shape : List Nat
  dtype : Nat
  fill_value : Int
  deriving DecidableEq

/-- An N-dimensional array (numpy `ndarray` with integer elements),
modelled as a shape together with the element at each coordinate. -/
structure NDArray where
  shape : List Nat
  data : Coord → Int

/-- Shape of the array produced by slicing with a selection: the length
of each per-dimension range. -/
def selShape (sel : SliceSelection) : List Nat :=
  sel.map (fun se => se.2 - se.1)

/-- Whether a coordinate lies inside a slice selection. -/
def inSel (sel : SliceSelection) (c : Coord) : Bool :=
  c.length == sel.length &&
    (sel.zip c).all (fun p => p.1.1 ≤ p.2 && p.2 < p.1.2)

/-- Translate a coordinate of the sliced view to a coordinate of the
base array, adding the per-dimension range starts. -/
def coordAbs (sel : SliceSelection) (c : Coord) : Coord :=
  List.zipWith (fun se ci => se.1 + ci) sel c

/-- Translate a base-array coordinate to a coordinate of the sliced
view, subtracting the per-dimension range starts. -/
def coordRel (c : Coord) (sel : SliceSelection) : Coord :=
  List.zipWith (fun ci se => ci - se.1) c sel

/-- Modelled from the spec: numpy basic slicing `a[sel]` reading a
rectilinear sub-region of an array. -/
def getSel (a : NDArray) (sel : SliceSelection) : NDArray :=
  ⟨selShape sel, fun c => a.data (coordAbs sel c)⟩

/-- Modelled from the spec: numpy slice assignment `a[sel] = src`, as a
pure update returning the written array. -/
def setSel (a : NDArray) (sel : SliceSelection) (src : NDArray) : NDArray :=
  ⟨a.shape, fun c => if inSel sel c then src.data (coordRel c sel) else a.data c⟩

/-- Modelled from the spec: numpy slice assignment of a constant
`a[sel] = v`, as a pure update. -/
def setSelConst (a : NDArray) (sel : SliceSelection) (v : Int) : NDArray :=
  ⟨a.shape, fun c => if inSel sel c then v else a.data c⟩

/-- Modelled from the spec: `np.empty(shape).fill(v)` — a chunk-shaped
buffer holding `v` everywhere. -/
def fillArray (shape : List Nat) (v : Int) : NDArray :=
  ⟨shape, fun _ => v⟩

/-- All coordinates inside a given shape, in row-major order. -/
def coordsUnder : List Nat → List Coord
  | [] => [[]]
  | n :: rest => (List.range n).flatMap (fun i => (coordsUnder rest).map (fun c => i :: c))

/-- Modelled from the spec: `np.all(a == v)` — every element of the
array equals the value. -/
def npAllEq (a : NDArray) (v : Int) : Bool :=
  (coordsUnder a.shape).all (fun c => a.data c == v)

/-- Modelled from the spec: `is_total_slice` from `zarr.v3.indexing` is
not among the provided sources; spec 4.A fixes it: the selection is
total iff it covers `[0, C_i)` on every dimension of the chunk shape. -/
def is_total_slice (sel : SliceSelection) (shape : List Nat) : Bool :=
  sel.length == shape.length &&
    (sel.zip shape).all (fun p => p.1.1 == 0 && p.1.2 == p.2)

/-- The key-value store (spec 6 store contract): keys map to byte
strings, `none` is the absent sentinel. -/
def Store := String → Option Bytes

/-- `store_path.get()`: read a key, absent keys give `none`. -/
def storeGet (s : Store) (key : String) : Option Bytes := s key

/-- `store_path.set(bytes)`: write a key. -/
def storeSet (s : Store) (key : String) (v : Bytes) : Store :=
  fun k => if k = key then some v else s k

/-- `store_path.delete()`: remove a key (a no-op when absent). -/
def storeDelete (s : Store) (key : String) : Store :=
  fun k => if k = key then none else s k

/-- The store-facing actions a pipeline or engine call performs, in
order.  The two dispatch constructors record a hand-off of the whole
batch to the array-bytes codec's partial-I/O entry points. -/
inductive PipelineEffect where
  | get (key : String)
  | set (key : String) (val : Bytes)
  | del (key : String)
  | partialDecodeDispatch (args : List (String × SliceSelection × ArraySpec))
  | partialEncodeDispatch (args : List (String × NDArray × SliceSelection × ArraySpec))

/-- The store mutation performed by one pipeline-issued effect.  Reads
leave the store unchanged; the dispatch effects delegate their I/O to
the codec and are accounted separately. -/
def applyStoreEffect (s : Store) : PipelineEffect → Store
  | .get _ => s
  | .set key v => storeSet s key v
  | .del key => storeDelete s key
  | .partialDecodeDispatch _ => s
  | .partialEncodeDispatch _ => s

/-- Run a list of pipeline effects against a store, in order. -/
def runStoreEffects (s : Store) (fx : List PipelineEffect) : Store :=
  fx.foldl applyStoreEffect s

/-- Modelled from the spec: `concurrent_map(items, fn, limit)` from
`zarr.v3.common` is not among the provided sources; spec 4.D fixes its
functional behaviour — results are returned in input order and the
concurrency limit does not affect the result — so it is modelled as an
order-preserving map. -/
def concurrent_map {α β : Type} (items : List α) (f : α → β) : List β :=
  items.map f

/-- Array-array codec contract (spec 4.B): metadata resolution plus
batched encode/decode over `(array?, spec)` pairs. -/
structure ArrayArrayCodec where
  resolve_metadata : ArraySpec → ArraySpec
  encode_batch : List (Option NDArray × ArraySpec) → List (Option NDArray)
  decode_batch : List (Option NDArray × ArraySpec) → List (Option NDArray)

/-- Array-bytes codec contract (spec 4.B): serialisation between arrays
and bytes, with the optional partial-I/O mixins.  The partial entry
points read and write the store themselves, so they take the store
state. -/
structure ArrayBytesCodec where
  resolve_metadata : ArraySpec → ArraySpec
  encode_batch : List (Option NDArray × ArraySpec) → List (Option Bytes)
  decode_batch : List (Option Bytes × ArraySpec) → List (Option NDArray)
  implementsPartialDecode : Bool
  implementsPartialEncode : Bool
  decode_partial_batched : Store → List (String × SliceSelection × ArraySpec) → List (Option NDArray)
  encode_partial_batched : Store → List (String × NDArray × SliceSelection × ArraySpec) → Store

/-- Bytes-bytes codec contract (spec 4.B). -/
structure BytesBytesCodec where
  resolve_metadata : ArraySpec → ArraySpec
  encode_batch : List (Option Bytes × ArraySpec) → List (Option Bytes)
  decode_batch : List (Option Bytes × ArraySpec) → List (Option Bytes)

/-- `unzip2` (batched_pipeline.py lines 29-35). -/
def unzip2 {T U : Type} (l : List (T × U)) : List T × List U :=
  (l.map Prod.fst, l.map Prod.snd)

/-- `resolve_batched` (batched_pipeline.py lines 38-39), specialised to a
codec family via its `resolve_metadata` function. -/
def resolve_batched (resolve : ArraySpec → ArraySpec) (chunk_specs : List ArraySpec) : List ArraySpec :=
  chunk_specs.map resolve

/-- `BatchedCodecPipeline` (batched_pipeline.py line 43): the codec list
partitioned into the array-array prefix, the unique array-bytes codec
and the bytes-bytes suffix, as held by the `CodecPipeline` base class. -/
structure BatchedCodecPipeline where
  array_array_codecs : List ArrayArrayCodec
  array_bytes_codec : ArrayBytesCodec
  bytes_bytes_codecs : List BytesBytesCodec

namespace BatchedCodecPipeline

/-- Modelled from the spec: `supports_partial_decode` lives on the
`CodecPipeline` base class, not among the provided sources; spec 4.C
fixes it: true iff the array-bytes codec implements the partial-decode
mixin and there are no other codecs. -/
def supports_partial_decode (p : BatchedCodecPipeline) : Bool :=
  p.array_array_codecs.isEmpty && p.bytes_bytes_codecs.isEmpty &&
    p.array_bytes_codec.implementsPartialDecode

/-- Modelled from the spec: `supports_partial_encode`, same shape as
`supports_partial_decode` (spec 4.C). -/
def supports_partial_encode (p : BatchedCodecPipeline) : Bool :=
  p.array_array_codecs.isEmpty && p.bytes_bytes_codecs.isEmpty &&
    p.array_bytes_codec.implementsPartialEncode

/-- The `for aa_codec in self.array_array_codecs` loop of
`_codecs_with_resolved_metadata_batched` (batched_pipeline.py lines
51-54): pair every array-array codec with the spec batch it sees and
thread `resolve_metadata` forward; also returns the final spec batch. -/
def resolveStagesAA : List ArrayArrayCodec → List ArraySpec →
    List (ArrayArrayCodec × List ArraySpec) × List ArraySpec
  | [], chunk_specs => ([], chunk_specs)
  | c :: cs, chunk_specs =>
    let rest := resolveStagesAA cs (resolve_batched c.resolve_metadata chunk_specs)
    ((c, chunk_specs) :: rest.1, rest.2)

/-- The `for bb_codec in self.bytes_bytes_codecs` loop of
`_codecs_with_resolved_metadata_batched` (batched_pipeline.py lines
61-64). -/
def resolveStagesBB : List BytesBytesCodec → List ArraySpec →
    List (BytesBytesCodec × List ArraySpec) × List ArraySpec
  | [], chunk_specs => ([], chunk_specs)
  | c :: cs, chunk_specs =>
    let rest := resolveStagesBB cs (resolve_batched c.resolve_metadata chunk_specs)
    ((c, chunk_specs) :: rest.1, rest.2)

/-- `_codecs_with_resolved_metadata_batched` (batched_pipeline.py lines
44-66): pair every codec with the per-stage spec batch it sees, threading
`resolve_metadata` forward through the three stages. -/
def codecs_with_resolved_metadata_batched (p : BatchedCodecPipeline)
    (chunk_specs : List ArraySpec) :
    List (ArrayArrayCodec × List ArraySpec) × (ArrayBytesCodec × List ArraySpec) ×
      List (BytesBytesCodec × List ArraySpec) :=
  let aa := resolveStagesAA p.array_array_codecs chunk_specs
  let ab_codec_with_spec := (p.array_bytes_codec, aa.2)
  let specs2 := resolve_batched p.array_bytes_codec.resolve_metadata aa.2
  let bb := resolveStagesBB p.bytes_bytes_codecs specs2
  (aa.1, ab_codec_with_spec, bb.1)

/-- `decode_batched` (batched_pipeline.py lines 111-139): unzip the
batch, compute the per-stage specs, then apply the bytes-bytes codecs in
reverse list order, the array-bytes codec, and the array-array codecs in
reverse list order. -/
def decode_batched (p : BatchedCodecPipeline)
    (chunk_bytes_and_specs : List (Option Bytes × ArraySpec)) : List (Option NDArray) :=
  let u := unzip2 chunk_bytes_and_specs
  let stages := p.codecs_with_resolved_metadata_batched u.2
  let chunk_bytes_batch := stages.2.2.reverse.foldl
    (fun b st => st.1.decode_batch (b.zip st.2)) u.1
  let chunk_array_batch := stages.2.1.1.decode_batch (chunk_bytes_batch.zip stages.2.1.2)
  stages.1.reverse.foldl (fun b st => st.1.decode_batch (b.zip st.2)) chunk_array_batch

/-- The `for aa_codec in self.array_array_codecs` loop of
`encode_batched` (batched_pipeline.py lines 159-163): encode with the
current spec batch, then thread `resolve_batched`. -/
def encodeLoopAA : List ArrayArrayCodec → List (Option NDArray) → List ArraySpec →
    List (Option NDArray) × List ArraySpec
  | [], batch, specs => (batch, specs)
  | c :: cs, batch, specs =>
    encodeLoopAA cs (c.encode_batch (batch.zip specs)) (resolve_batched c.resolve_metadata specs)

/-- The `for bb_codec in self.bytes_bytes_codecs` loop of
`encode_batched` (batched_pipeline.py lines 170-174). -/
def encodeLoopBB : List BytesBytesCodec → List (Option Bytes) → List ArraySpec →
    List (Option Bytes) × List ArraySpec
  | [], batch, specs => (batch, specs)
  | c :: cs, batch, specs =>
    encodeLoopBB cs (c.encode_batch (batch.zip specs)) (resolve_batched c.resolve_metadata specs)

/-- `encode_batched` (batched_pipeline.py lines 152-176): apply the
array-array codecs in forward list order, the array-bytes codec, then
the bytes-bytes codecs in forward list order, threading the spec batch
through `resolve_batched` after each codec. -/
def encode_batched (p : BatchedCodecPipeline)
    (chunk_arrays_and_specs : List (Option NDArray × ArraySpec)) : List (Option Bytes) :=
  let u := unzip2 chunk_arrays_and_specs
  let aa := encodeLoopAA p.array_array_codecs u.1 u.2
  let chunk_bytes_batch := p.array_bytes_codec.encode_batch (aa.1.zip aa.2)
  let specs2 := resolve_batched p.array_bytes_codec.resolve_metadata aa.2
  (encodeLoopBB p.bytes_bytes_codecs chunk_bytes_batch specs2).1

end BatchedCodecPipeline

/-- Claim-side rendering of C1's encode order: apply the array-array
stages of `codecs_with_resolved_metadata_batched` in forward list order,
then the array-bytes codec, then the bytes-bytes stages in forward list
order. -/
def encodeByStagesForward (p : BatchedCodecPipeline)
    (input : List (Option NDArray × ArraySpec)) : List (Option Bytes) :=
  let stages := p.codecs_with_resolved_metadata_batched (input.map Prod.snd)
  let arrs := stages.1.foldl (fun b st => st.1.encode_batch (b.zip st.2)) (input.map Prod.fst)
  let bts := stages.2.1.1.encode_batch (arrs.zip stages.2.1.2)
  stages.2.2.foldl (fun b st => st.1.encode_batch (b.zip st.2)) bts

/-- Claim-side rendering of C1's decode order: each stage reversed
relative to encode — bytes-bytes stages in reverse list order, then the
array-bytes codec, then the array-array stages in reverse list order. -/
def decodeByStagesReversed (p : BatchedCodecPipeline)
    (input : List (Option Bytes × ArraySpec)) : List (Option NDArray) :=
  let stages := p.codecs_with_resolved_metadata_batched (input.map Prod.snd)
  let bts := stages.2.2.reverse.foldl (fun b st => st.1.decode_batch (b.zip st.2)) (input.map Prod.fst)
  let arrs := stages.2.1.1.decode_batch (bts.zip stages.2.1.2)
  stages.1.reverse.foldl (fun b st => st.1.decode_batch (b.zip st.2)) arrs

lemma encodeLoopAA_eq_foldStages (cs : List ArrayArrayCodec)
    (batch : List (Option NDArray)) (specs : List ArraySpec) :
    BatchedCodecPipeline.encodeLoopAA cs batch specs =
      ((BatchedCodecPipeline.resolveStagesAA cs specs).1.foldl
          (fun b st => st.1.encode_batch (b.zip st.2)) batch,
        (BatchedCodecPipeline.resolveStagesAA cs specs).2) := by
  induction cs generalizing batch specs with
  | nil => rfl
  | cons c cs ih =>
    simp [BatchedCodecPipeline.encodeLoopAA, BatchedCodecPipeline.resolveStagesAA, ih]

lemma encodeLoopBB_eq_foldStages (cs : List BytesBytesCodec)
    (batch : List (Option Bytes)) (specs : List ArraySpec) :
    BatchedCodecPipeline.encodeLoopBB cs batch specs =
      ((BatchedCodecPipeline.resolveStagesBB cs specs).1.foldl
          (fun b st => st.1.encode_batch (b.zip st.2)) batch,
        (BatchedCodecPipeline.resolveStagesBB cs specs).2) := by
  induction cs generalizing batch specs with
  | nil => rfl
  | cons c cs ih =>
    simp [BatchedCodecPipeline.encodeLoopBB, BatchedCodecPipeline.resolveStagesBB, ih]

/-- C1: for every codec list partitioned into array-array prefix,
array-bytes codec and bytes-bytes suffix, `encode_batched` applies the
array-array codecs in forward list order, then the array-bytes codec,
then the bytes-bytes codecs in forward list order, and `decode_batched`
applies the bytes-bytes codecs in reverse list order, then the
array-bytes codec, then the array-array codecs in reverse list order —
each stage reversed relative to encode, over the per-stage spec batches
of `codecs_with_resolved_metadata_batched`. -/
theorem encode_forward_decode_stage_reversed (p : BatchedCodecPipeline)
    (input : List (Option NDArray × ArraySpec))
    (binput : List (Option Bytes × ArraySpec)) :
    p.encode_batched input = encodeByStagesForward p input ∧
    p.decode_batched binput = decodeByStagesReversed p binput := by
  constructor
  · unfold BatchedCodecPipeline.encode_batched encodeByStagesForward
      BatchedCodecPipeline.codecs_with_resolved_metadata_batched unzip2
    simp [encodeLoopAA_eq_foldStages, encodeLoopBB_eq_foldStages]
  · rfl

/-- The sequence of spec batches fed to the array-array codecs by
`encode_batched`, read off from the spec threading of `encodeLoopAA`. -/
def encodeSpecTraceAA : List ArrayArrayCodec → List ArraySpec → List (List ArraySpec)
  | [], _ => []
  | c :: cs, specs => specs :: encodeSpecTraceAA cs (resolve_batched c.resolve_metadata specs)

/-- The spec batch left after the array-array loop of `encode_batched`,
read off from the spec threading of `encodeLoopAA`. -/
def encodeSpecsAfterAA : List ArrayArrayCodec → List ArraySpec → List ArraySpec
  | [], specs => specs
  | c :: cs, specs => encodeSpecsAfterAA cs (resolve_batched c.resolve_metadata specs)

/-- The sequence of spec batches fed to the bytes-bytes codecs by
`encode_batched`, read off from the spec threading of `encodeLoopBB`. -/
def encodeSpecTraceBB : List BytesBytesCodec → List ArraySpec → List (List ArraySpec)
  | [], _ => []
  | c :: cs, specs => specs :: encodeSpecTraceBB cs (resolve_batched c.resolve_metadata specs)

/-- All spec batches fed by `encode_batched`, in its forward application
order: the array-array stages, then the array-bytes codec, then the
bytes-bytes stages. -/
def encodeStageSpecs (p : BatchedCodecPipeline) (chunk_specs : List ArraySpec) :
    List (List ArraySpec) :=
  encodeSpecTraceAA p.array_array_codecs chunk_specs ++
    [encodeSpecsAfterAA p.array_array_codecs chunk_specs] ++
    encodeSpecTraceBB p.bytes_bytes_codecs
      (resolve_batched p.array_bytes_codec.resolve_metadata
        (encodeSpecsAfterAA p.array_array_codecs chunk_specs))

/-- All spec batches computed by `codecs_with_resolved_metadata_batched`,
in forward stage order. -/
def resolvedStageSpecs (p : BatchedCodecPipeline) (chunk_specs : List ArraySpec) :
    List (List ArraySpec) :=
  let stages := p.codecs_with_resolved_metadata_batched chunk_specs
  stages.1.map Prod.snd ++ [stages.2.1.2] ++ stages.2.2.map Prod.snd

/-- All spec batches used by `decode_batched`, in its application order:
the bytes-bytes stages reversed, then the array-bytes codec, then the
array-array stages reversed. -/
def decodeStageSpecs (p : BatchedCodecPipeline) (chunk_specs : List ArraySpec) :
    List (List ArraySpec) :=
  let stages := p.codecs_with_resolved_metadata_batched chunk_specs
  stages.2.2.reverse.map Prod.snd ++ [stages.2.1.2] ++ stages.1.reverse.map Prod.snd

lemma resolveStagesAA_map_snd (cs : List ArrayArrayCodec) (specs : List ArraySpec) :
    (BatchedCodecPipeline.resolveStagesAA cs specs).1.map Prod.snd =
      encodeSpecTraceAA cs specs := by
  induction cs generalizing specs with
  | nil => rfl
  | cons c cs ih =>
    simp [BatchedCodecPipeline.resolveStagesAA, encodeSpecTraceAA, ih]

lemma resolveStagesAA_snd (cs : List ArrayArrayCodec) (specs : List ArraySpec) :
    (BatchedCodecPipeline.resolveStagesAA cs specs).2 = encodeSpecsAfterAA cs specs := by
  induction cs generalizing specs with
  | nil => rfl
  | cons c cs ih =>
    simp [BatchedCodecPipeline.resolveStagesAA, encodeSpecsAfterAA, ih]

lemma resolveStagesBB_map_snd (cs : List BytesBytesCodec) (specs : List ArraySpec) :
    (BatchedCodecPipeline.resolveStagesBB cs specs).1.map Prod.snd =
      encodeSpecTraceBB cs specs := by
  induction cs generalizing specs with
  | nil => rfl
  | cons c cs ih =>
    simp [BatchedCodecPipeline.resolveStagesBB, encodeSpecTraceBB, ih]

/-- C2: the per-stage spec sequence computed by
`codecs_with_resolved_metadata_batched` equals the spec sequence that
`encode_batched` computes and feeds to each codec in forward order, and
the spec sequence `decode_batched` applies is that same sequence in
reverse. -/
theorem resolved_specs_shared_encode_decode (p : BatchedCodecPipeline)
    (chunk_specs : List ArraySpec) :
    resolvedStageSpecs p chunk_specs = encodeStageSpecs p chunk_specs ∧
    decodeStageSpecs p chunk_specs = (encodeStageSpecs p chunk_specs).reverse := by
  constructor
  · unfold resolvedStageSpecs encodeStageSpecs
      BatchedCodecPipeline.codecs_with_resolved_metadata_batched
    simp [resolveStagesAA_map_snd, resolveStagesAA_snd, resolveStagesBB_map_snd]
  · unfold decodeStageSpecs encodeStageSpecs
      BatchedCodecPipeline.codecs_with_resolved_metadata_batched
    simp [resolveStagesAA_map_snd, resolveStagesAA_snd, resolveStagesBB_map_snd,
      List.map_reverse]

/-- One element of `batch_info`: the `(store_path, chunk_spec,
chunk_selection, out_selection)` tuples consumed by `read_batched` and
`write_batched`.  Store paths are rendered as their key strings. -/
structure BatchItem where
  store_path : String
  chunk_spec : ArraySpec
  chunk_selection : SliceSelection
  out_selection : SliceSelection

/-- The value passed to `setitem` / `write_batched`: either a scalar
(`np.isscalar`) or an array. -/
inductive Value where
  | scalar (v : Int)
  | arr (a : NDArray)

/-- Evaluation of a list comprehension whose per-item evaluation can
raise: `none` as soon as any item raises, otherwise the list of
results. -/
def mapOption {α β : Type} (f : α → Option β) : List α → Option (List β)
  | [] => some []
  | a :: l =>
    match f a, mapOption f l with
    | some b, some bs => some (b :: bs)
    | _, _ => none

/-- Modelled from the spec: numpy subscription `value[out_selection]`
with a tuple-of-slices selection.  Subscripting a python or numpy scalar
with such a selection raises a `TypeError`, rendered as `none`. -/
def valueGetSel : Value → SliceSelection → Option NDArray
  | .scalar _, _ => none
  | .arr a, sel => some (getSel a sel)

namespace BatchedCodecPipeline

/-- The per-item output-buffer update of `read_batched` (batched_pipeline.py
lines 102-109): write the chunk-selection slice of a decoded chunk at the
item's out-selection, or the fill value when the chunk is absent. -/
def applyOutUpdate (o : NDArray) (ci : Option NDArray × BatchItem) : NDArray :=
  match ci.1 with
  | some chunk_array => setSel o ci.2.out_selection (getSel chunk_array ci.2.chunk_selection)
  | none => setSelConst o ci.2.out_selection ci.2.chunk_spec.fill_value

/-- The per-item output-buffer update of the partial-decode path of
`read_batched` (batched_pipeline.py lines 82-88): the codec already
returned the selected region, so it is written at the out-selection
without further slicing. -/
def applyOutUpdateWhole (o : NDArray) (ci : Option NDArray × BatchItem) : NDArray :=
  match ci.1 with
  | some chunk_array => setSel o ci.2.out_selection chunk_array
  | none => setSelConst o ci.2.out_selection ci.2.chunk_spec.fill_value

/-- The full-decode read path's store reads (batched_pipeline.py lines
90-94): `get()` every key under `concurrent_map`. -/
def read_chunk_bytes (batch_info : List BatchItem) (store : Store) : List (Option Bytes) :=
  concurrent_map batch_info (fun i => storeGet store i.store_path)

/-- The full-decode read path's decode step (batched_pipeline.py lines
95-101): decode the fetched bytes against each item's chunk spec. -/
def read_decoded (p : BatchedCodecPipeline) (batch_info : List BatchItem)
    (store : Store) : List (Option NDArray) :=
  p.decode_batched ((read_chunk_bytes batch_info store).zip (batch_info.map (·.chunk_spec)))

/-- `read_batched` (batched_pipeline.py lines 68-109), returning the
effect trace and the final output buffer. -/
def read_batched (p : BatchedCodecPipeline) (batch_info : List BatchItem)
    (out : NDArray) (store : Store) : List PipelineEffect × NDArray :=
  if p.supports_partial_decode then
    let args := batch_info.map (fun i => (i.store_path, i.chunk_selection, i.chunk_spec))
    let chunk_array_batch := p.array_bytes_codec.decode_partial_batched store args
    ([PipelineEffect.partialDecodeDispatch args],
      ((chunk_array_batch.zip batch_info).foldl applyOutUpdateWhole out))
  else
    (batch_info.map (fun i => PipelineEffect.get i.store_path),
      (((p.read_decoded batch_info store).zip batch_info).foldl applyOutUpdate out))

/-- `_merge_chunk_array` (batched_pipeline.py lines 231-248): a total
slice takes the new slice as the whole chunk; otherwise start from a
fill-valued buffer (no prior chunk) or a copy of the existing chunk, and
assign the new slice at the chunk selection. -/
def merge_chunk_array (existing_chunk_array : Option NDArray)
    (new_chunk_array_slice : NDArray) (chunk_spec : ArraySpec)
    (chunk_selection : SliceSelection) : NDArray :=
  if is_total_slice chunk_selection chunk_spec.shape then new_chunk_array_slice
  else
    let chunk_array :=
      match existing_chunk_array with
      | none => fillArray chunk_spec.shape chunk_spec.fill_value
      | some e => e
    setSel chunk_array chunk_selection new_chunk_array_slice

/-- The read-phase key list of `write_batched` (batched_pipeline.py lines
216-219): `none` for items whose chunk selection is a total slice, the
store path otherwise. -/
def write_read_keys (batch_info : List BatchItem) : List (Option String) :=
  batch_info.map (fun i =>
    if is_total_slice i.chunk_selection i.chunk_spec.shape then none else some i.store_path)

/-- `_read_key` (batched_pipeline.py lines 210-213): skip absent keys,
`get()` the rest; paired with the effect it performs. -/
def read_key (store : Store) : Option String → Option Bytes × List PipelineEffect
  | none => (none, [])
  | some store_path => (storeGet store store_path, [PipelineEffect.get store_path])

/-- The read phase of `write_batched` (batched_pipeline.py lines
215-222): fetch the existing bytes of every non-total item under
`concurrent_map`, with the get effects each fetch performs. -/
def write_read_results (batch_info : List BatchItem) (store : Store) :
    List (Option Bytes × List PipelineEffect) :=
  concurrent_map (write_read_keys batch_info) (read_key store)

/-- The decode step of `write_batched` (batched_pipeline.py lines
223-229). -/
def write_decoded (p : BatchedCodecPipeline) (batch_info : List BatchItem)
    (store : Store) : List (Option NDArray) :=
  p.decode_batched
    (((write_read_results batch_info store).map Prod.fst).zip (batch_info.map (·.chunk_spec)))

/-- The merge step of `write_batched` (batched_pipeline.py lines
250-255): merge each decoded chunk with `value[out_selection]`.  `none`
signals the `TypeError` of subscripting a scalar value. -/
def write_merged (p : BatchedCodecPipeline) (batch_info : List BatchItem)
    (value : Value) (store : Store) : Option (List NDArray) :=
  mapOption (fun ci =>
      (valueGetSel value ci.2.out_selection).map (fun s =>
        merge_chunk_array ci.1 s ci.2.chunk_spec ci.2.chunk_selection))
    ((p.write_decoded batch_info store).zip batch_info)

/-- The fill-value elision step of `write_batched` (batched_pipeline.py
lines 257-260): replace chunks that equal the fill value everywhere by
`none`. -/
def write_elided (p : BatchedCodecPipeline) (batch_info : List BatchItem)
    (value : Value) (store : Store) : Option (List (Option NDArray)) :=
  (p.write_merged batch_info value store).map (fun merged =>
    (merged.zip batch_info).map (fun ci =>
      if npAllEq ci.1 ci.2.chunk_spec.fill_value then none else some ci.1))

/-- The encode step of `write_batched` (batched_pipeline.py lines
262-268). -/
def write_encoded (p : BatchedCodecPipeline) (batch_info : List BatchItem)
    (value : Value) (store : Store) : Option (List (Option Bytes)) :=
  (p.write_elided batch_info value store).map (fun elided =>
    p.encode_batched (elided.zip (batch_info.map (·.chunk_spec))))

/-- `_write_key` effects (batched_pipeline.py lines 270-283): `delete()`
the key when the encoded bytes are `none`, `set()` them otherwise. -/
def write_store_effects (p : BatchedCodecPipeline) (batch_info : List BatchItem)
    (value : Value) (store : Store) : Option (List PipelineEffect) :=
  (p.write_encoded batch_info value store).map (fun encoded =>
    (encoded.zip batch_info).map (fun ci =>
      match ci.1 with
      | none => PipelineEffect.del ci.2.store_path
      | some chunk_bytes => PipelineEffect.set ci.2.store_path chunk_bytes))

/-- `write_batched` (batched_pipeline.py lines 193-283): the
partial-encode fast path dispatches once to the array-bytes codec;
otherwise the read-modify-write path runs read, decode, merge, elide,
encode and the final set/delete phase.  Returns `none` when
`value[out_selection]` raises (scalar value). -/
def write_batched (p : BatchedCodecPipeline) (batch_info : List BatchItem)
    (value : Value) (store : Store) : Option (List PipelineEffect × Store) :=
  if p.supports_partial_encode then
    (mapOption (fun i =>
        (valueGetSel value i.out_selection).map (fun s =>
          (i.store_path, s, i.chunk_selection, i.chunk_spec))) batch_info).map (fun args =>
      ([PipelineEffect.partialEncodeDispatch args],
        p.array_bytes_codec.encode_partial_batched store args))
  else
    (p.write_store_effects batch_info value store).map (fun wfx =>
      let getfx := ((write_read_results batch_info store).map Prod.snd).flatten
      (getfx ++ wfx, runStoreEffects store (getfx ++ wfx)))

end BatchedCodecPipeline

/-- Spec 4.B and 4.C codec contract for a batched transform: one output
per input, and an output position is absent (`none`) exactly when the
input position is (decoders yield `none` for absent chunks, encoders
accept `none` by producing `none`). -/
def NonePreservingBatch {α β : Type} (f : List (Option α × ArraySpec) → List (Option β)) : Prop :=
  ∀ inp : List (Option α × ArraySpec),
    (f inp).length = inp.length ∧
    ∀ (k : Nat) (o : Option α) (s : ArraySpec), inp[k]? = some (o, s) →
      ∃ o', (f inp)[k]? = some o' ∧ o'.isNone = o.isNone

/-- All encode entry points of a pipeline's codecs satisfy the batched
codec contract. -/
def PipelineEncodeContract (p : BatchedCodecPipeline) : Prop :=
  (∀ c ∈ p.array_array_codecs, NonePreservingBatch c.encode_batch) ∧
    NonePreservingBatch p.array_bytes_codec.encode_batch ∧
    ∀ c ∈ p.bytes_bytes_codecs, NonePreservingBatch c.encode_batch

/-- All decode entry points of a pipeline's codecs satisfy the batched
codec contract. -/
def PipelineDecodeContract (p : BatchedCodecPipeline) : Prop :=
  (∀ c ∈ p.array_array_codecs, NonePreservingBatch c.decode_batch) ∧
    NonePreservingBatch p.array_bytes_codec.decode_batch ∧
    ∀ c ∈ p.bytes_bytes_codecs, NonePreservingBatch c.decode_batch

lemma batchStep_preserves {α β : Type} (f : List (Option α × ArraySpec) → List (Option β))
    (hf : NonePreservingBatch f) (batch : List (Option α)) (specs : List ArraySpec)
    (hlen : specs.length = batch.length) :
    (f (batch.zip specs)).length = batch.length ∧
    ∀ (k : Nat) (o : Option α), batch[k]? = some o →
      ∃ o', (f (batch.zip specs))[k]? = some o' ∧ o'.isNone = o.isNone := by
  obtain ⟨hl, hp⟩ := hf (batch.zip specs)
  constructor
  · rw [hl, List.length_zip, hlen, Nat.min_self]
  · intro k o hk
    have hklt : k < batch.length := by
      by_contra hge
      rw [List.getElem?_eq_none (Nat.le_of_not_lt hge)] at hk
      exact Option.noConfusion hk
    have hks : k < specs.length := by omega
    have hspec : specs[k]? = some specs[k] := List.getElem?_eq_getElem hks
    exact hp k o specs[k] (List.getElem?_zip_eq_some.mpr ⟨hk, hspec⟩)

lemma encodeLoopAA_preserves (cs : List ArrayArrayCodec)
    (hcs : ∀ c ∈ cs, NonePreservingBatch c.encode_batch)
    (batch : List (Option NDArray)) (specs : List ArraySpec)
    (hlen : specs.length = batch.length) :
    (BatchedCodecPipeline.encodeLoopAA cs batch specs).1.length = batch.length ∧
    (BatchedCodecPipeline.encodeLoopAA cs batch specs).2.length = specs.length ∧
    ∀ (k : Nat) (o : Option NDArray), batch[k]? = some o →
      ∃ o', (BatchedCodecPipeline.encodeLoopAA cs batch specs).1[k]? = some o' ∧
        o'.isNone = o.isNone := by
  induction cs generalizing batch specs with
  | nil =>
    exact ⟨rfl, rfl, fun k o hk => ⟨o, hk, rfl⟩⟩
  | cons c cs ih =>
    have hc := hcs c (List.mem_cons_self c cs)
    have hstep := batchStep_preserves c.encode_batch hc batch specs hlen
    have hlen' : (resolve_batched c.resolve_metadata specs).length =
        (c.encode_batch (batch.zip specs)).length := by
      rw [hstep.1, resolve_batched, List.length_map, hlen]
    have ihr := ih (fun d hd => hcs d (List.mem_cons_of_mem c hd))
      (c.encode_batch (batch.zip specs)) (resolve_batched c.resolve_metadata specs) hlen'
    refine ⟨?_, ?_, ?_⟩
    · rw [BatchedCodecPipeline.encodeLoopAA, ihr.1, hstep.1]
    · rw [BatchedCodecPipeline.encodeLoopAA, ihr.2.1, resolve_batched, List.length_map]
    · intro k o hk
      obtain ⟨o1, ho1, hiso1⟩ := hstep.2 k o hk
      obtain ⟨o', ho', hiso'⟩ := ihr.2.2 k o1 ho1
      exact ⟨o', by rw [BatchedCodecPipeline.encodeLoopAA]; exact ho', by rw [hiso', hiso1]⟩

lemma encodeLoopBB_preserves (cs : List BytesBytesCodec)
    (hcs : ∀ c ∈ cs, NonePreservingBatch c.encode_batch)
    (batch : List (Option Bytes)) (specs : List ArraySpec)
    (hlen : specs.length = batch.length) :
    (BatchedCodecPipeline.encodeLoopBB cs batch specs).1.length = batch.length ∧
    (BatchedCodecPipeline.encodeLoopBB cs batch specs).2.length = specs.length ∧
    ∀ (k : Nat) (o : Option Bytes), batch[k]? = some o →
      ∃ o', (BatchedCodecPipeline.encodeLoopBB cs batch specs).1[k]? = some o' ∧
        o'.isNone = o.isNone := by
  induction cs generalizing batch specs with
  | nil =>
    exact ⟨rfl, rfl, fun k o hk => ⟨o, hk, rfl⟩⟩
  | cons c cs ih =>
    have hc := hcs c (List.mem_cons_self c cs)
    have hstep := batchStep_preserves c.encode_batch hc batch specs hlen
    have hlen' : (resolve_batched c.resolve_metadata specs).length =
        (c.encode_batch (batch.zip specs)).length := by
      rw [hstep.1, resolve_batched, List.length_map, hlen]
    have ihr := ih (fun d hd => hcs d (List.mem_cons_of_mem c hd))
      (c.encode_batch (batch.zip specs)) (resolve_batched c.resolve_metadata specs) hlen'
    refine ⟨?_, ?_, ?_⟩
    · rw [BatchedCodecPipeline.encodeLoopBB, ihr.1, hstep.1]
    · rw [BatchedCodecPipeline.encodeLoopBB, ihr.2.1, resolve_batched, List.length_map]
    · intro k o hk
      obtain ⟨o1, ho1, hiso1⟩ := hstep.2 k o hk
      obtain ⟨o', ho', hiso'⟩ := ihr.2.2 k o1 ho1
      exact ⟨o', by rw [BatchedCodecPipeline.encodeLoopBB]; exact ho', by rw [hiso', hiso1]⟩

/-- Through `encode_batched`, absent (`none`) chunks stay absent and
present chunks stay present, position by position. -/
lemma encode_batched_preserves (p : BatchedCodecPipeline)
    (hec : PipelineEncodeContract p) (input : List (Option NDArray × ArraySpec)) :
    (p.encode_batched input).length = input.length ∧
    ∀ (k : Nat) (o : Option NDArray) (s : ArraySpec), input[k]? = some (o, s) →
      ∃ o', (p.encode_batched input)[k]? = some o' ∧ o'.isNone = o.isNone := by
  obtain ⟨haa, hab, hbb⟩ := hec
  have hlen0 : (input.map Prod.snd).length = (input.map Prod.fst).length := by
    simp
  have haar := encodeLoopAA_preserves p.array_array_codecs haa
    (input.map Prod.fst) (input.map Prod.snd) hlen0
  have habl : (BatchedCodecPipeline.encodeLoopAA p.array_array_codecs
      (input.map Prod.fst) (input.map Prod.snd)).2.length =
      (BatchedCodecPipeline.encodeLoopAA p.array_array_codecs
      (input.map Prod.fst) (input.map Prod.snd)).1.length := by
    rw [haar.1, haar.2.1]
    simp
  have habr := batchStep_preserves p.array_bytes_codec.encode_batch hab
    (BatchedCodecPipeline.encodeLoopAA p.array_array_codecs
      (input.map Prod.fst) (input.map Prod.snd)).1
    (BatchedCodecPipeline.encodeLoopAA p.array_array_codecs
      (input.map Prod.fst) (input.map Prod.snd)).2 habl
  have hbbl : (resolve_batched p.array_bytes_codec.resolve_metadata
      (BatchedCodecPipeline.encodeLoopAA p.array_array_codecs
        (input.map Prod.fst) (input.map Prod.snd)).2).length =
      (p.array_bytes_codec.encode_batch
        ((BatchedCodecPipeline.encodeLoopAA p.array_array_codecs
          (input.map Prod.fst) (input.map Prod.snd)).1.zip
          (BatchedCodecPipeline.encodeLoopAA p.array_array_codecs
            (input.map Prod.fst) (input.map Prod.snd)).2)).length := by
    rw [habr.1, resolve_batched, List.length_map, habl]
  have hbbr := encodeLoopBB_preserves p.bytes_bytes_codecs hbb
    (p.array_bytes_codec.encode_batch
      ((BatchedCodecPipeline.encodeLoopAA p.array_array_codecs
        (input.map Prod.fst) (input.map Prod.snd)).1.zip
        (BatchedCodecPipeline.encodeLoopAA p.array_array_codecs
          (input.map Prod.fst) (input.map Prod.snd)).2))
    (resolve_batched p.array_bytes_codec.resolve_metadata
      (BatchedCodecPipeline.encodeLoopAA p.array_array_codecs
        (input.map Prod.fst) (input.map Prod.snd)).2) hbbl
  constructor
  · simp only [BatchedCodecPipeline.encode_batched, unzip2]
    rw [hbbr.1, habr.1, haar.1, List.length_map]
  · intro k o s hk
    have hk1 : (input.map Prod.fst)[k]? = some o := by
      rw [List.getElem?_map, hk]
      rfl
    obtain ⟨o1, ho1, hiso1⟩ := haar.2.2 k o hk1
    obtain ⟨o2, ho2, hiso2⟩ := habr.2 k o1 ho1
    obtain ⟨o', ho', hiso'⟩ := hbbr.2.2 k o2 ho2
    refine ⟨o', ?_, by rw [hiso', hiso2, hiso1]⟩
    simp only [BatchedCodecPipeline.encode_batched, unzip2]
    exact ho'

lemma resolveStagesAA_snd_length (cs : List ArrayArrayCodec) (specs : List ArraySpec) :
    (BatchedCodecPipeline.resolveStagesAA cs specs).2.length = specs.length := by
  induction cs generalizing specs with
  | nil => rfl
  | cons c cs ih =>
    rw [BatchedCodecPipeline.resolveStagesAA, ih, resolve_batched, List.length_map]

lemma resolveStagesAA_mem (cs : List ArrayArrayCodec) (specs : List ArraySpec) :
    ∀ st ∈ (BatchedCodecPipeline.resolveStagesAA cs specs).1,
      st.1 ∈ cs ∧ st.2.length = specs.length := by
  induction cs generalizing specs with
  | nil => intro st hst; exact absurd hst (List.not_mem_nil st)
  | cons c cs ih =>
    intro st hst
    rw [BatchedCodecPipeline.resolveStagesAA] at hst
    rcases List.mem_cons.mp hst with h | h
    · subst h
      exact ⟨List.mem_cons_self c cs, rfl⟩
    · obtain ⟨h1, h2⟩ := ih (resolve_batched c.resolve_metadata specs) st h
      exact ⟨List.mem_cons_of_mem c h1, by rw [h2, resolve_batched, List.length_map]⟩

lemma resolveStagesBB_mem (cs : List BytesBytesCodec) (specs : List ArraySpec) :
    ∀ st ∈ (BatchedCodecPipeline.resolveStagesBB cs specs).1,
      st.1 ∈ cs ∧ st.2.length = specs.length := by
  induction cs generalizing specs with
  | nil => intro st hst; exact absurd hst (List.not_mem_nil st)
  | cons c cs ih =>
    intro st hst
    rw [BatchedCodecPipeline.resolveStagesBB] at hst
    rcases List.mem_cons.mp hst with h | h
    · subst h
      exact ⟨List.mem_cons_self c cs, rfl⟩
    · obtain ⟨h1, h2⟩ := ih (resolve_batched c.resolve_metadata specs) st h
      exact ⟨List.mem_cons_of_mem c h1, by rw [h2, resolve_batched, List.length_map]⟩

lemma foldStagesBB_decode_preserves (stages : List (BytesBytesCodec × List ArraySpec)) (n : Nat)
    (hst : ∀ st ∈ stages, NonePreservingBatch st.1.decode_batch ∧ st.2.length = n)
    (batch : List (Option Bytes)) (hlen : batch.length = n) :
    (stages.foldl (fun b st => st.1.decode_batch (b.zip st.2)) batch).length = n ∧
    ∀ (k : Nat) (o : Option Bytes), batch[k]? = some o →
      ∃ o', (stages.foldl (fun b st => st.1.decode_batch (b.zip st.2)) batch)[k]? = some o' ∧
        o'.isNone = o.isNone := by
  induction stages generalizing batch with
  | nil => exact ⟨hlen, fun k o hk => ⟨o, hk, rfl⟩⟩
  | cons st stages ih =>
    obtain ⟨hc, hl⟩ := hst st (List.mem_cons_self st stages)
    have hstep := batchStep_preserves st.1.decode_batch hc batch st.2 (by rw [hl, hlen])
    have ihr := ih (fun st' hst' => hst st' (List.mem_cons_of_mem st hst'))
      (st.1.decode_batch (batch.zip st.2)) (by rw [hstep.1, hlen])
    refine ⟨by rw [List.foldl_cons]; exact ihr.1, ?_⟩
    intro k o hk
    obtain ⟨o1, ho1, hiso1⟩ := hstep.2 k o hk
    obtain ⟨o', ho', hiso'⟩ := ihr.2 k o1 ho1
    exact ⟨o', by rw [List.foldl_cons]; exact ho', by rw [hiso', hiso1]⟩

lemma foldStagesAA_decode_preserves (stages : List (ArrayArrayCodec × List ArraySpec)) (n : Nat)
    (hst : ∀ st ∈ stages, NonePreservingBatch st.1.decode_batch ∧ st.2.length = n)
    (batch : List (Option NDArray)) (hlen : batch.length = n) :
    (stages.foldl (fun b st => st.1.decode_batch (b.zip st.2)) batch).length = n ∧
    ∀ (k : Nat) (o : Option NDArray), batch[k]? = some o →
      ∃ o', (stages.foldl (fun b st => st.1.decode_batch (b.zip st.2)) batch)[k]? = some o' ∧
        o'.isNone = o.isNone := by
  induction stages generalizing batch with
  | nil => exact ⟨hlen, fun k o hk => ⟨o, hk, rfl⟩⟩
  | cons st stages ih =>
    obtain ⟨hc, hl⟩ := hst st (List.mem_cons_self st stages)
    have hstep := batchStep_preserves st.1.decode_batch hc batch st.2 (by rw [hl, hlen])
    have ihr := ih (fun st' hst' => hst st' (List.mem_cons_of_mem st hst'))
      (st.1.decode_batch (batch.zip st.2)) (by rw [hstep.1, hlen])
    refine ⟨by rw [List.foldl_cons]; exact ihr.1, ?_⟩
    intro k o hk
    obtain ⟨o1, ho1, hiso1⟩ := hstep.2 k o hk
    obtain ⟨o', ho', hiso'⟩ := ihr.2 k o1 ho1
    exact ⟨o', by rw [List.foldl_cons]; exact ho', by rw [hiso', hiso1]⟩

/-- Through `decode_batched`, absent (`none`) byte strings decode to
absent chunks and present ones to present chunks, position by
position. -/
lemma decode_batched_preserves (p : BatchedCodecPipeline)
    (hdc : PipelineDecodeContract p) (input : List (Option Bytes × ArraySpec)) :
    (p.decode_batched input).length = input.length ∧
    ∀ (k : Nat) (o : Option Bytes) (s : ArraySpec), input[k]? = some (o, s) →
      ∃ o', (p.decode_batched input)[k]? = some o' ∧ o'.isNone = o.isNone := by
  obtain ⟨haa, hab, hbb⟩ := hdc
  have habsl : (BatchedCodecPipeline.resolveStagesAA p.array_array_codecs
      (input.map Prod.snd)).2.length = input.length := by
    rw [resolveStagesAA_snd_length, List.length_map]
  have hbbst : ∀ st ∈ (BatchedCodecPipeline.resolveStagesBB p.bytes_bytes_codecs
      (resolve_batched p.array_bytes_codec.resolve_metadata
        (BatchedCodecPipeline.resolveStagesAA p.array_array_codecs
          (input.map Prod.snd)).2)).1.reverse,
      NonePreservingBatch st.1.decode_batch ∧ st.2.length = input.length := by
    intro st hst
    obtain ⟨h1, h2⟩ := resolveStagesBB_mem p.bytes_bytes_codecs _ st (List.mem_reverse.mp hst)
    refine ⟨hbb st.1 h1, ?_⟩
    rw [h2, resolve_batched, List.length_map, habsl]
  have haast : ∀ st ∈ (BatchedCodecPipeline.resolveStagesAA p.array_array_codecs
      (input.map Prod.snd)).1.reverse,
      NonePreservingBatch st.1.decode_batch ∧ st.2.length = input.length := by
    intro st hst
    obtain ⟨h1, h2⟩ := resolveStagesAA_mem p.array_array_codecs _ st (List.mem_reverse.mp hst)
    refine ⟨haa st.1 h1, ?_⟩
    rw [h2, List.length_map]
  have hbfold := foldStagesBB_decode_preserves _ input.length hbbst (input.map Prod.fst)
    (List.length_map _ _)
  have habstep := batchStep_preserves p.array_bytes_codec.decode_batch hab
    ((BatchedCodecPipeline.resolveStagesBB p.bytes_bytes_codecs
      (resolve_batched p.array_bytes_codec.resolve_metadata
        (BatchedCodecPipeline.resolveStagesAA p.array_array_codecs
          (input.map Prod.snd)).2)).1.reverse.foldl
      (fun b st => st.1.decode_batch (b.zip st.2)) (input.map Prod.fst))
    (BatchedCodecPipeline.resolveStagesAA p.array_array_codecs (input.map Prod.snd)).2
    (by rw [habsl, hbfold.1])
  have hafold := foldStagesAA_decode_preserves _ input.length haast
    (p.array_bytes_codec.decode_batch
      (((BatchedCodecPipeline.resolveStagesBB p.bytes_bytes_codecs
        (resolve_batched p.array_bytes_codec.resolve_metadata
          (BatchedCodecPipeline.resolveStagesAA p.array_array_codecs
            (input.map Prod.snd)).2)).1.reverse.foldl
        (fun b st => st.1.decode_batch (b.zip st.2)) (input.map Prod.fst)).zip
        (BatchedCodecPipeline.resolveStagesAA p.array_array_codecs (input.map Prod.snd)).2))
    (by rw [habstep.1, hbfold.1])
  constructor
  · simp only [BatchedCodecPipeline.decode_batched, unzip2,
      BatchedCodecPipeline.codecs_with_resolved_metadata_batched]
    exact hafold.1
  · intro k o s hk
    have hk1 : (input.map Prod.fst)[k]? = some o := by
      rw [List.getElem?_map, hk]
      rfl
    obtain ⟨o1, ho1, hiso1⟩ := hbfold.2 k o hk1
    obtain ⟨o2, ho2, hiso2⟩ := habstep.2 k o1 ho1
    obtain ⟨o', ho', hiso'⟩ := hafold.2 k o2 ho2
    refine ⟨o', ?_, by rw [hiso', hiso2, hiso1]⟩
    simp only [BatchedCodecPipeline.decode_batched, unzip2,
      BatchedCodecPipeline.codecs_with_resolved_metadata_batched]
    exact ho'

/-- C3: in the read-modify-write path of `write_batched`, the merged
chunk array is the new slice itself for a total slice; otherwise, with
no existing decoded chunk, a chunk-shaped fill-valued buffer with the
new slice assigned at the chunk selection; otherwise a copy of the
existing chunk with the new slice assigned at the chunk selection,
leaving every element outside the chunk selection — and the existing
array value itself — unchanged. -/
theorem merge_chunk_array_cases (existing : Option NDArray) (slice : NDArray)
    (chunk_spec : ArraySpec) (chunk_selection : SliceSelection) :
    (is_total_slice chunk_selection chunk_spec.shape = true →
      BatchedCodecPipeline.merge_chunk_array existing slice chunk_spec chunk_selection = slice) ∧
    (is_total_slice chunk_selection chunk_spec.shape = false → existing = none →
      (BatchedCodecPipeline.merge_chunk_array existing slice chunk_spec chunk_selection).shape =
          chunk_spec.shape ∧
      ∀ c : Coord,
        (BatchedCodecPipeline.merge_chunk_array existing slice chunk_spec chunk_selection).data c =
          if inSel chunk_selection c then slice.data (coordRel c chunk_selection)
          else chunk_spec.fill_value) ∧
    (∀ e : NDArray, is_total_slice chunk_selection chunk_spec.shape = false →
      existing = some e →
      (BatchedCodecPipeline.merge_chunk_array existing slice chunk_spec chunk_selection).shape =
          e.shape ∧
      ∀ c : Coord,
        (BatchedCodecPipeline.merge_chunk_array existing slice chunk_spec chunk_selection).data c =
          if inSel chunk_selection c then slice.data (coordRel c chunk_selection)
          else e.data c) := by
  refine ⟨fun ht => ?_, fun ht he => ?_, fun e ht he => ?_⟩
  · simp [BatchedCodecPipeline.merge_chunk_array, ht]
  · subst he
    constructor
    · simp [BatchedCodecPipeline.merge_chunk_array, ht, setSel, fillArray]
    · intro c
      simp [BatchedCodecPipeline.merge_chunk_array, ht, setSel, fillArray]
  · subst he
    constructor
    · simp [BatchedCodecPipeline.merge_chunk_array, ht, setSel]
    · intro c
      simp [BatchedCodecPipeline.merge_chunk_array, ht, setSel]

/-- Witness for C3: all three branches of the merge exercised at
concrete inputs. -/
theorem merge_chunk_array_cases_witness :
    BatchedCodecPipeline.merge_chunk_array (some (fillArray [2] 7)) (fillArray [2] 1)
        ⟨[2], 0, 0⟩ [(0, 2)] = fillArray [2] 1 ∧
    (BatchedCodecPipeline.merge_chunk_array none (fillArray [1] 5) ⟨[2], 0, 0⟩
        [(1, 2)]).data [0] = 0 ∧
    (BatchedCodecPipeline.merge_chunk_array (some (fillArray [2] 7)) (fillArray [1] 5)
        ⟨[2], 0, 0⟩ [(1, 2)]).data [0] = 7 := by
  refine ⟨?_, ?_, ?_⟩
  · exact (merge_chunk_array_cases (some (fillArray [2] 7)) (fillArray [2] 1)
      ⟨[2], 0, 0⟩ [(0, 2)]).1 (by decide)
  · have h := ((merge_chunk_array_cases none (fillArray [1] 5) ⟨[2], 0, 0⟩
      [(1, 2)]).2.1 (by decide) rfl).2 [0]
    simpa using h
  · have h := ((merge_chunk_array_cases (some (fillArray [2] 7)) (fillArray [1] 5)
      ⟨[2], 0, 0⟩ [(1, 2)]).2.2 (fillArray [2] 7) (by decide) rfl).2 [0]
    simpa using h

/-- The store key an effect writes to, if any. -/
def effectWrites : PipelineEffect → Option String
  | .set key _ => some key
  | .del key => some key
  | _ => none

lemma applyStoreEffect_untouched (s : Store) (e : PipelineEffect) (key : String)
    (h : effectWrites e ≠ some key) : applyStoreEffect s e key = s key := by
  cases e with
  | set k v =>
    have hk : k ≠ key := fun hkk => h (by rw [effectWrites, hkk])
    simp [applyStoreEffect, storeSet, Ne.symm hk]
  | del k =>
    have hk : k ≠ key := fun hkk => h (by rw [effectWrites, hkk])
    simp [applyStoreEffect, storeDelete, Ne.symm hk]
  | get k => rfl
  | partialDecodeDispatch args => rfl
  | partialEncodeDispatch args => rfl

lemma runStoreEffects_key_untouched (fx : List PipelineEffect) (key : String) (s : Store)
    (h : ∀ e ∈ fx, effectWrites e ≠ some key) :
    runStoreEffects s fx key = s key := by
  induction fx generalizing s with
  | nil => rfl
  | cons e fx ih =>
    have hstep := applyStoreEffect_untouched s e key (h e (List.mem_cons_self e fx))
    have hrest := ih (applyStoreEffect s e) (fun e' he' => h e' (List.mem_cons_of_mem e he'))
    rw [runStoreEffects, List.foldl_cons] at *
    rw [hrest, hstep]

lemma runStoreEffects_key_none (fx : List PipelineEffect) (key : String) (s : Store)
    (hall : ∀ e ∈ fx, effectWrites e = some key → e = PipelineEffect.del key)
    (hsome : ∃ e ∈ fx, effectWrites e = some key) :
    runStoreEffects s fx key = none := by
  induction fx generalizing s with
  | nil =>
    obtain ⟨e, he, _⟩ := hsome
    exact absurd he (List.not_mem_nil e)
  | cons e fx ih =>
    by_cases hrest : ∃ e' ∈ fx, effectWrites e' = some key
    · exact ih (applyStoreEffect s e) (fun e' he' => hall e' (List.mem_cons_of_mem e he')) hrest
    · obtain ⟨e', he', hw'⟩ := hsome
      have hee : e' = e := by
        rcases List.mem_cons.mp he' with h | h
        · exact h
        · exact absurd ⟨e', h, hw'⟩ hrest
      subst hee
      have hdel : e' = PipelineEffect.del key := hall e' (List.mem_cons_self e' fx) hw'
      subst hdel
      have huntouched : ∀ e'' ∈ fx, effectWrites e'' ≠ some key := by
        intro e'' he'' hw''
        exact hrest ⟨e'', he'', hw''⟩
      rw [runStoreEffects, List.foldl_cons]
      have := runStoreEffects_key_untouched fx key
        (applyStoreEffect s (PipelineEffect.del key)) huntouched
      rw [runStoreEffects] at this
      rw [this]
      simp [applyStoreEffect, storeDelete]

lemma runStoreEffects_gets (fx : List PipelineEffect) (s : Store)
    (h : ∀ e ∈ fx, ∃ k, e = PipelineEffect.get k) :
    runStoreEffects s fx = s := by
  induction fx generalizing s with
  | nil => rfl
  | cons e fx ih =>
    obtain ⟨k, hk⟩ := h e (List.mem_cons_self e fx)
    subst hk
    rw [runStoreEffects, List.foldl_cons]
    exact ih s (fun e' he' => h e' (List.mem_cons_of_mem _ he'))

/-- The get effects issued by the read phase of `write_batched` are
exactly one `get` per item whose chunk selection is not a total slice,
in batch order. -/
lemma write_get_effects_eq (batch_info : List BatchItem) (store : Store) :
    ((BatchedCodecPipeline.write_read_results batch_info store).map Prod.snd).flatten =
      (batch_info.filter
        (fun i => !(is_total_slice i.chunk_selection i.chunk_spec.shape))).map
        (fun i => PipelineEffect.get i.store_path) := by
  induction batch_info with
  | nil => rfl
  | cons i rest ih =>
    simp only [BatchedCodecPipeline.write_read_results, BatchedCodecPipeline.write_read_keys,
      concurrent_map, List.map_map] at ih ⊢
    by_cases h : is_total_slice i.chunk_selection i.chunk_spec.shape = true
    · simp [h, BatchedCodecPipeline.read_key, ih, Function.comp]
    · rw [Bool.not_eq_true] at h
      simp [h, BatchedCodecPipeline.read_key, ih, Function.comp]

lemma write_get_effects_are_gets (batch_info : List BatchItem) (store : Store) :
    ∀ e ∈ ((BatchedCodecPipeline.write_read_results batch_info store).map Prod.snd).flatten,
      ∃ k, e = PipelineEffect.get k := by
  intro e he
  rw [write_get_effects_eq] at he
  obtain ⟨i, _, hi⟩ := List.mem_map.mp he
  exact ⟨i.store_path, hi.symm⟩

/-- C5: in the read-modify-write path of `write_batched`, a store
`get()` is issued for a batch item iff its chunk selection is not a
total slice of the chunk shape (the issued gets are exactly one per
non-total item, in batch order); items whose get was skipped are passed
through as `none` bytes and decode to `none` (absent) chunks, exactly as
if the store had returned `none`. -/
theorem write_gets_iff_not_total_slice (p : BatchedCodecPipeline)
    (batch_info : List BatchItem) (store : Store)
    (hdc : PipelineDecodeContract p) :
    ((BatchedCodecPipeline.write_read_results batch_info store).map Prod.snd).flatten =
      (batch_info.filter
        (fun i => !(is_total_slice i.chunk_selection i.chunk_spec.shape))).map
        (fun i => PipelineEffect.get i.store_path) ∧
    ∀ (i : Nat) (item : BatchItem), batch_info[i]? = some item →
      (is_total_slice item.chunk_selection item.chunk_spec.shape = false →
        ((BatchedCodecPipeline.write_read_results batch_info store).map Prod.fst)[i]? =
          some (storeGet store item.store_path)) ∧
      (is_total_slice item.chunk_selection item.chunk_spec.shape = true →
        ((BatchedCodecPipeline.write_read_results batch_info store).map Prod.fst)[i]? =
          some none ∧
        (p.write_decoded batch_info store)[i]? = some none) := by
  refine ⟨write_get_effects_eq batch_info store, ?_⟩
  intro i item hitem
  have hfst : ((BatchedCodecPipeline.write_read_results batch_info store).map Prod.fst)[i]? =
      some (BatchedCodecPipeline.read_key store
        (if is_total_slice item.chunk_selection item.chunk_spec.shape then none
          else some item.store_path)).1 := by
    simp only [BatchedCodecPipeline.write_read_results, BatchedCodecPipeline.write_read_keys,
      concurrent_map, List.map_map, List.getElem?_map, hitem]
    rfl
  constructor
  · intro ht
    rw [hfst, ht]
    rfl
  · intro ht
    have hbytes : ((BatchedCodecPipeline.write_read_results batch_info store).map
        Prod.fst)[i]? = some none := by
      rw [hfst, ht]
      rfl
    refine ⟨hbytes, ?_⟩
    have hspec : (batch_info.map (·.chunk_spec))[i]? = some item.chunk_spec := by
      rw [List.getElem?_map, hitem]
      rfl
    have hzip : (((BatchedCodecPipeline.write_read_results batch_info store).map
        Prod.fst).zip (batch_info.map (·.chunk_spec)))[i]? =
        some ((none : Option Bytes), item.chunk_spec) :=
      List.getElem?_zip_eq_some.mpr ⟨hbytes, hspec⟩
    obtain ⟨o', ho', hiso'⟩ := (decode_batched_preserves p hdc _).2 i none item.chunk_spec hzip
    rw [Option.isNone_none] at hiso'
    have ho'n : o' = none := Option.isNone_iff_eq_none.mp hiso'
    rw [BatchedCodecPipeline.write_decoded, ho', ho'n]

/-- C4: in the read-modify-write path of `write_batched`, a batch item
whose merged chunk equals the fill value everywhere is replaced by
`none` before encoding, the encoder yields `none` for it, its store key
gets a `delete()` effect, and — when that key is not shared with another
item — the key does not exist in the store after the write; every other
item has its encoded bytes `set()` at its key. -/
theorem allfill_chunk_elided_and_deleted (p : BatchedCodecPipeline)
    (batch_info : List BatchItem) (v : NDArray) (store : Store)
    (hec : PipelineEncodeContract p)
    (merged : List NDArray)
    (hm : p.write_merged batch_info (Value.arr v) store = some merged)
    (i : Nat) (item : BatchItem) (hitem : batch_info[i]? = some item)
    (a : NDArray) (ha : merged[i]? = some a) :
    (npAllEq a item.chunk_spec.fill_value = true →
      (∃ elided, p.write_elided batch_info (Value.arr v) store = some elided ∧
        elided[i]? = some none) ∧
      (∃ encoded, p.write_encoded batch_info (Value.arr v) store = some encoded ∧
        encoded[i]? = some none) ∧
      (∃ wfx, p.write_store_effects batch_info (Value.arr v) store = some wfx ∧
        wfx[i]? = some (PipelineEffect.del item.store_path)) ∧
      (p.supports_partial_encode = false →
        (∀ (j : Nat) (itemj : BatchItem), j ≠ i → batch_info[j]? = some itemj →
          itemj.store_path ≠ item.store_path) →
        ∃ fx st, p.write_batched batch_info (Value.arr v) store = some (fx, st) ∧
          st item.store_path = none)) ∧
    (npAllEq a item.chunk_spec.fill_value = false →
      ∃ encoded b, p.write_encoded batch_info (Value.arr v) store = some encoded ∧
        encoded[i]? = some (some b) ∧
        ∃ wfx, p.write_store_effects batch_info (Value.arr v) store = some wfx ∧
          wfx[i]? = some (PipelineEffect.set item.store_path b)) := by
  have hzipm : (merged.zip batch_info)[i]? = some (a, item) :=
    List.getElem?_zip_eq_some.mpr ⟨ha, hitem⟩
  have helided : p.write_elided batch_info (Value.arr v) store =
      some ((merged.zip batch_info).map (fun ci =>
        if npAllEq ci.1 ci.2.chunk_spec.fill_value then none else some ci.1)) := by
    rw [BatchedCodecPipeline.write_elided, hm]
    rfl
  have helidedAt : ((merged.zip batch_info).map (fun ci =>
      if npAllEq ci.1 ci.2.chunk_spec.fill_value then none else some ci.1))[i]? =
      some (if npAllEq a item.chunk_spec.fill_value then none else some a) := by
    rw [List.getElem?_map, hzipm]
    rfl
  have hspec : (batch_info.map (·.chunk_spec))[i]? = some item.chunk_spec := by
    rw [List.getElem?_map, hitem]
    rfl
  have hencoded : p.write_encoded batch_info (Value.arr v) store =
      some (p.encode_batched (((merged.zip batch_info).map (fun ci =>
        if npAllEq ci.1 ci.2.chunk_spec.fill_value then none else some ci.1)).zip
        (batch_info.map (·.chunk_spec)))) := by
    rw [BatchedCodecPipeline.write_encoded, helided]
    rfl
  constructor
  · intro hfill
    have helidedNone : ((merged.zip batch_info).map (fun ci =>
        if npAllEq ci.1 ci.2.chunk_spec.fill_value then none else some ci.1))[i]? =
        some none := by
      rw [helidedAt, hfill]
      rfl
    have hzipin : (((merged.zip batch_info).map (fun ci =>
        if npAllEq ci.1 ci.2.chunk_spec.fill_value then none else some ci.1)).zip
        (batch_info.map (·.chunk_spec)))[i]? =
        some ((none : Option NDArray), item.chunk_spec) :=
      List.getElem?_zip_eq_some.mpr ⟨helidedNone, hspec⟩
    obtain ⟨o', ho', hiso'⟩ := (encode_batched_preserves p hec _).2 i none item.chunk_spec hzipin
    rw [Option.isNone_none] at hiso'
    have ho'none : o' = none := Option.isNone_iff_eq_none.mp (by rw [hiso'])
    subst ho'none
    have hencAt : (p.encode_batched (((merged.zip batch_info).map (fun ci =>
        if npAllEq ci.1 ci.2.chunk_spec.fill_value then none else some ci.1)).zip
        (batch_info.map (·.chunk_spec))))[i]? = some none := ho'
    have hwfx : p.write_store_effects batch_info (Value.arr v) store =
        some (((p.encode_batched (((merged.zip batch_info).map (fun ci =>
          if npAllEq ci.1 ci.2.chunk_spec.fill_value then none else some ci.1)).zip
          (batch_info.map (·.chunk_spec)))).zip batch_info).map (fun ci =>
          match ci.1 with
          | none => PipelineEffect.del ci.2.store_path
          | some chunk_bytes => PipelineEffect.set ci.2.store_path chunk_bytes)) := by
      rw [BatchedCodecPipeline.write_store_effects, hencoded]
      rfl
    have hwfxAt : (((p.encode_batched (((merged.zip batch_info).map (fun ci =>
        if npAllEq ci.1 ci.2.chunk_spec.fill_value then none else some ci.1)).zip
        (batch_info.map (·.chunk_spec)))).zip batch_info).map (fun ci =>
        match ci.1 with
        | none => PipelineEffect.del ci.2.store_path
        | some chunk_bytes => PipelineEffect.set ci.2.store_path chunk_bytes))[i]? =
        some (PipelineEffect.del item.store_path) := by
      have hz : ((p.encode_batched (((merged.zip batch_info).map (fun ci =>
          if npAllEq ci.1 ci.2.chunk_spec.fill_value then none else some ci.1)).zip
          (batch_info.map (·.chunk_spec)))).zip batch_info)[i]? =
          some ((none : Option Bytes), item) :=
        List.getElem?_zip_eq_some.mpr ⟨hencAt, hitem⟩
      rw [List.getElem?_map, hz]
      rfl
    refine ⟨⟨_, helided, helidedNone⟩, ⟨_, hencoded, hencAt⟩, ⟨_, hwfx, hwfxAt⟩, ?_⟩
    intro hpe hdist
    rw [BatchedCodecPipeline.write_batched, hpe]
    simp only [Bool.false_eq_true, if_false, hwfx, Option.map_some]
    refine ⟨_, _, rfl, ?_⟩
    rw [runStoreEffects, List.foldl_append, ← runStoreEffects, ← runStoreEffects,
      runStoreEffects_gets _ _ (write_get_effects_are_gets batch_info store)]
    apply runStoreEffects_key_none
    · intro e he hw
      obtain ⟨ci, hci, hcie⟩ := List.mem_map.mp he
      obtain ⟨ob, itemj⟩ := ci
      obtain ⟨j, hj⟩ := List.mem_iff_getElem?.mp hci
      obtain ⟨hj1, hj2⟩ := List.getElem?_zip_eq_some.mp hj
      have hwk : itemj.store_path = item.store_path := by
        cases ob with
        | none =>
          rw [← hcie] at hw
          exact Option.some_injective _ hw
        | some b =>
          rw [← hcie] at hw
          exact Option.some_injective _ hw
      by_cases hji : j = i
      · subst hji
        rw [hencAt] at hj1
        have hob : ob = none := by
          injection hj1 with h1
          rw [h1]
        subst hob
        have hij : itemj = item := by
          rw [hitem] at hj2
          injection hj2 with h2
          rw [h2]
        rw [← hcie, hij]
      · exact absurd hwk (hdist j itemj hji hj2)
    · exact ⟨PipelineEffect.del item.store_path,
        List.mem_iff_getElem?.mpr ⟨i, hwfxAt⟩, rfl⟩
  · intro hfill
    have helidedSome : ((merged.zip batch_info).map (fun ci =>
        if npAllEq ci.1 ci.2.chunk_spec.fill_value then none else some ci.1))[i]? =
        some (some a) := by
      rw [helidedAt, hfill]
      rfl
    have hzipin : (((merged.zip batch_info).map (fun ci =>
        if npAllEq ci.1 ci.2.chunk_spec.fill_value then none else some ci.1)).zip
        (batch_info.map (·.chunk_spec)))[i]? = some (some a, item.chunk_spec) :=
      List.getElem?_zip_eq_some.mpr ⟨helidedSome, hspec⟩
    obtain ⟨o', ho', hiso'⟩ := (encode_batched_preserves p hec _).2 i (some a) item.chunk_spec hzipin
    rw [Option.isNone_some] at hiso'
    obtain ⟨b, hb⟩ : ∃ b, o' = some b := by
      cases o' with
      | none => exact absurd hiso' (by simp)
      | some b => exact ⟨b, rfl⟩
    subst hb
    have hwfx2 : p.write_store_effects batch_info (Value.arr v) store =
        some (((p.encode_batched (((merged.zip batch_info).map (fun ci =>
          if npAllEq ci.1 ci.2.chunk_spec.fill_value then none else some ci.1)).zip
          (batch_info.map (·.chunk_spec)))).zip batch_info).map (fun ci =>
          match ci.1 with
          | none => PipelineEffect.del ci.2.store_path
          | some chunk_bytes => PipelineEffect.set ci.2.store_path chunk_bytes)) := by
      rw [BatchedCodecPipeline.write_store_effects, hencoded]
      rfl
    have hz : ((p.encode_batched (((merged.zip batch_info).map (fun ci =>
        if npAllEq ci.1 ci.2.chunk_spec.fill_value then none else some ci.1)).zip
        (batch_info.map (·.chunk_spec)))).zip batch_info)[i]? = some (some b, item) :=
      List.getElem?_zip_eq_some.mpr ⟨ho', hitem⟩
    refine ⟨_, b, hencoded, ho', _, hwfx2, ?_⟩
    rw [List.getElem?_map, hz]
    rfl

/-- The value the `read_batched` output update of one batch item writes
at a coordinate covered by the item's out-selection. -/
def outValueAt (ci : Option NDArray × BatchItem) (c : Coord) : Int :=
  match ci.1 with
  | some chunk_array =>
    (getSel chunk_array ci.2.chunk_selection).data (coordRel c ci.2.out_selection)
  | none => ci.2.chunk_spec.fill_value

lemma applyOutUpdate_covered (o : NDArray) (ci : Option NDArray × BatchItem) (c : Coord)
    (hc : inSel ci.2.out_selection c = true) :
    (BatchedCodecPipeline.applyOutUpdate o ci).data c = outValueAt ci c := by
  cases h : ci.1 with
  | some chunk_array =>
    simp [BatchedCodecPipeline.applyOutUpdate, h, setSel, hc, outValueAt]
  | none =>
    simp [BatchedCodecPipeline.applyOutUpdate, h, setSelConst, hc, outValueAt]

lemma applyOutUpdate_not_covered (o : NDArray) (ci : Option NDArray × BatchItem) (c : Coord)
    (hc : inSel ci.2.out_selection c = false) :
    (BatchedCodecPipeline.applyOutUpdate o ci).data c = o.data c := by
  cases h : ci.1 with
  | some chunk_array =>
    simp [BatchedCodecPipeline.applyOutUpdate, h, setSel, hc]
  | none =>
    simp [BatchedCodecPipeline.applyOutUpdate, h, setSelConst, hc]

lemma foldl_applyOutUpdate_untouched (pairs : List (Option NDArray × BatchItem))
    (o : NDArray) (c : Coord)
    (h : ∀ ci ∈ pairs, inSel ci.2.out_selection c = false) :
    (pairs.foldl BatchedCodecPipeline.applyOutUpdate o).data c = o.data c := by
  induction pairs generalizing o with
  | nil => rfl
  | cons ci rest ih =>
    rw [List.foldl_cons, ih (BatchedCodecPipeline.applyOutUpdate o ci)
      (fun ci' hci' => h ci' (List.mem_cons_of_mem ci hci')),
      applyOutUpdate_not_covered o ci c (h ci (List.mem_cons_self ci rest))]

lemma foldl_applyOutUpdate_at (pairs : List (Option NDArray × BatchItem))
    (o : NDArray) (c : Coord) (i : Nat) (pi_ : Option NDArray × BatchItem)
    (hi : pairs[i]? = some pi_) (hc : inSel pi_.2.out_selection c = true)
    (hlater : ∀ (j : Nat) (pj : Option NDArray × BatchItem), i < j →
      pairs[j]? = some pj → inSel pj.2.out_selection c = false) :
    (pairs.foldl BatchedCodecPipeline.applyOutUpdate o).data c = outValueAt pi_ c := by
  induction pairs generalizing i o with
  | nil => exact absurd hi (by simp)
  | cons ci rest ih =>
    cases i with
    | zero =>
      have hp : ci = pi_ := by
        rw [List.getElem?_cons_zero] at hi
        injection hi
      subst hp
      rw [List.foldl_cons]
      rw [foldl_applyOutUpdate_untouched rest (BatchedCodecPipeline.applyOutUpdate o ci) c ?_]
      · exact applyOutUpdate_covered o ci c hc
      · intro pj hpj
        obtain ⟨j, hj⟩ := List.mem_iff_getElem?.mp hpj
        refine hlater (j + 1) pj (Nat.succ_pos j) ?_
        rw [List.getElem?_cons_succ]
        exact hj
    | succ i =>
      rw [List.foldl_cons]
      refine ih (BatchedCodecPipeline.applyOutUpdate o ci) i ?_ ?_
      · rw [List.getElem?_cons_succ] at hi
        exact hi
      · intro j pj hij hj
        refine hlater (j + 1) pj (by omega) ?_
        rw [List.getElem?_cons_succ]
        exact hj

/-- C6: in the non-partial-decode path of `read_batched`, at every
coordinate of a batch item's out-selection (out-selections being
pairwise disjoint), a present decoded chunk contributes
`chunk_array[chunk_selection]`, and an item whose store `get()` returned
`none` contributes the chunk spec's fill value — an absent key is not an
error. -/
theorem read_present_slice_absent_fill (p : BatchedCodecPipeline)
    (batch_info : List BatchItem) (out : NDArray) (store : Store)
    (hpd : p.supports_partial_decode = false)
    (hdc : PipelineDecodeContract p)
    (hdisj : ∀ (i j : Nat) (itemi itemj : BatchItem), i ≠ j →
      batch_info[i]? = some itemi → batch_info[j]? = some itemj →
      ∀ c : Coord,
        ¬(inSel itemi.out_selection c = true ∧ inSel itemj.out_selection c = true))
    (i : Nat) (item : BatchItem) (hitem : batch_info[i]? = some item)
    (c : Coord) (hc : inSel item.out_selection c = true) :
    (∀ a : NDArray, (p.read_decoded batch_info store)[i]? = some (some a) →
      (p.read_batched batch_info out store).2.data c =
        (getSel a item.chunk_selection).data (coordRel c item.out_selection)) ∧
    (storeGet store item.store_path = none →
      (p.read_batched batch_info out store).2.data c = item.chunk_spec.fill_value) := by
  have hlater : ∀ (j : Nat) (pj : Option NDArray × BatchItem), i < j →
      ((p.read_decoded batch_info store).zip batch_info)[j]? = some pj →
      inSel pj.2.out_selection c = false := by
    intro j pj hij hj
    obtain ⟨_, hj2⟩ := List.getElem?_zip_eq_some.mp hj
    have := hdisj i j item pj.2 (by omega) hitem hj2 c
    cases hcb : inSel pj.2.out_selection c with
    | false => rfl
    | true => exact absurd ⟨hc, hcb⟩ this
  have hbatched : (p.read_batched batch_info out store).2 =
      ((p.read_decoded batch_info store).zip batch_info).foldl
        BatchedCodecPipeline.applyOutUpdate out := by
    rw [BatchedCodecPipeline.read_batched, hpd]
    rfl
  constructor
  · intro a ha
    have hzip : ((p.read_decoded batch_info store).zip batch_info)[i]? =
        some (some a, item) := List.getElem?_zip_eq_some.mpr ⟨ha, hitem⟩
    rw [hbatched, foldl_applyOutUpdate_at _ out c i (some a, item) hzip hc hlater]
    rfl
  · intro habsent
    have hbytes : (BatchedCodecPipeline.read_chunk_bytes batch_info store)[i]? =
        some none := by
      rw [BatchedCodecPipeline.read_chunk_bytes, concurrent_map, List.getElem?_map, hitem,
        Option.map_some', habsent]
    have hspec : (batch_info.map (·.chunk_spec))[i]? = some item.chunk_spec := by
      rw [List.getElem?_map, hitem]
      rfl
    have hzipb : ((BatchedCodecPipeline.read_chunk_bytes batch_info store).zip
        (batch_info.map (·.chunk_spec)))[i]? = some ((none : Option Bytes), item.chunk_spec) :=
      List.getElem?_zip_eq_some.mpr ⟨hbytes, hspec⟩
    obtain ⟨o', ho', hiso'⟩ := (decode_batched_preserves p hdc _).2 i none item.chunk_spec hzipb
    rw [Option.isNone_none] at hiso'
    have ho'n : o' = none := Option.isNone_iff_eq_none.mp hiso'
    subst ho'n
    have hdec : (p.read_decoded batch_info store)[i]? = some none := ho'
    have hzip : ((p.read_decoded batch_info store).zip batch_info)[i]? =
        some ((none : Option NDArray), item) := List.getElem?_zip_eq_some.mpr ⟨hdec, hitem⟩
    rw [hbatched, foldl_applyOutUpdate_at _ out c i (none, item) hzip hc hlater]
    rfl

lemma mapOption_valueGetSel_arr (batch_info : List BatchItem) (v : NDArray) :
    mapOption (fun i => (valueGetSel (Value.arr v) i.out_selection).map (fun s =>
      (i.store_path, s, i.chunk_selection, i.chunk_spec))) batch_info =
    some (batch_info.map (fun i =>
      (i.store_path, getSel v i.out_selection, i.chunk_selection, i.chunk_spec))) := by
  induction batch_info with
  | nil => rfl
  | cons i rest ih =>
    simp only [valueGetSel, Option.map_some'] at ih ⊢
    simp [mapOption, ih]

/-- C9: when `supports_partial_encode` holds, `write_batched` performs a
single dispatch to the array-bytes codec's `encode_partial_batched` with
one `(store_path, value[out_selection], chunk_selection, spec)` entry
per batch item and nothing else: the pipeline itself issues no store
get, set or delete effect and applies no fill-value elision to the
dispatched slices. -/
theorem partial_encode_single_dispatch (p : BatchedCodecPipeline)
    (batch_info : List BatchItem) (v : NDArray) (store : Store)
    (hpe : p.supports_partial_encode = true) :
    p.write_batched batch_info (Value.arr v) store =
      some ([PipelineEffect.partialEncodeDispatch (batch_info.map (fun i =>
          (i.store_path, getSel v i.out_selection, i.chunk_selection, i.chunk_spec)))],
        p.array_bytes_codec.encode_partial_batched store (batch_info.map (fun i =>
          (i.store_path, getSel v i.out_selection, i.chunk_selection, i.chunk_spec)))) := by
  rw [BatchedCodecPipeline.write_batched, hpe]
  simp [mapOption_valueGetSel_arr]

/-- C10: `read_batched` (and hence `getitem`, which reaches the store
only through it) issues no `set` or `delete` effect — in both the
partial-decode and the full-decode path its effects are store reads or a
read-only partial-decode dispatch — so running its effect trace leaves
the store contents unchanged. -/
theorem read_only_gets_store_unchanged (p : BatchedCodecPipeline)
    (batch_info : List BatchItem) (out : NDArray) (store : Store) :
    (∀ e ∈ (p.read_batched batch_info out store).1,
      (∀ (k : String) (v : Bytes), e ≠ PipelineEffect.set k v) ∧
      (∀ k : String, e ≠ PipelineEffect.del k)) ∧
    runStoreEffects store (p.read_batched batch_info out store).1 = store := by
  by_cases hpd : p.supports_partial_decode = true
  · have hfx : (p.read_batched batch_info out store).1 =
        [PipelineEffect.partialDecodeDispatch (batch_info.map (fun i =>
          (i.store_path, i.chunk_selection, i.chunk_spec)))] := by
      rw [BatchedCodecPipeline.read_batched, hpd]
      rfl
    rw [hfx]
    constructor
    · intro e he
      rw [List.mem_singleton] at he
      subst he
      exact ⟨fun k v h => PipelineEffect.noConfusion h,
        fun k h => PipelineEffect.noConfusion h⟩
    · rfl
  · rw [Bool.not_eq_true] at hpd
    have hfx : (p.read_batched batch_info out store).1 =
        batch_info.map (fun i => PipelineEffect.get i.store_path) := by
      rw [BatchedCodecPipeline.read_batched, hpd]
      rfl
    rw [hfx]
    constructor
    · intro e he
      obtain ⟨i, _, hi⟩ := List.mem_map.mp he
      subst hi
      exact ⟨fun k v h => PipelineEffect.noConfusion h,
        fun k h => PipelineEffect.noConfusion h⟩
    · refine runStoreEffects_gets _ store ?_
      intro e he
      obtain ⟨i, _, hi⟩ := List.mem_map.mp he
      exact ⟨i.store_path, hi.symm⟩

/-- Modelled from the spec: ceiling division, giving the number of
chunks per dimension `⌈shape_i / chunk_shape_i⌉` (spec 3). -/
def ceilDiv (a b : Nat) : Nat := (a + b - 1) / b

/-- Modelled from the spec: `all_chunk_coords(shape, chunk_shape)` from
`zarr.v3.indexing` is not among the provided sources; spec 4.A fixes it:
every chunk coordinate of the grid, the Cartesian product of
`range(⌈shape_i / chunk_shape_i⌉)` per dimension. -/
def all_chunk_coords (shape chunk_shape : List Nat) : List Coord :=
  coordsUnder (List.zipWith ceilDiv shape chunk_shape)

/-- The regular chunk grid (`zarr.v3.chunk_grids.RegularChunkGrid`). -/
structure RegularChunkGrid where
  chunk_shape : List Nat

/-- Modelled from the spec: the two chunk-key encoding variants of
spec 6. -/
inductive ChunkKeyEncoding where
  | defaultEnc (sep : String)
  | v2Enc (sep : String)

/-- Modelled from the spec: `encode_chunk_key` — default encoding
`"c" sep i0 sep i1 …` (scalar arrays give `"c"`); v2 encoding
`i0 sep i1 …` (scalar arrays give `"0"`). -/
def encode_chunk_key : ChunkKeyEncoding → Coord → String
  | .defaultEnc sep, coords => String.intercalate sep ("c" :: coords.map toString)
  | .v2Enc sep, coords =>
    if coords.isEmpty then "0" else String.intercalate sep (coords.map toString)

/-- `ArrayMetadata` (array.py / `zarr.v3.metadata`), restricted to the
fields the resize path touches. -/
structure ArrayMetadata where
  shape : List Nat
  chunk_grid : RegularChunkGrid
  chunk_key_encoding : ChunkKeyEncoding
  fill_value : Int

/-- `AsyncArray` (array.py line 50): the metadata and the store path
prefix; the runtime configuration does not affect resize semantics. -/
structure AsyncArray where
  metadata : ArrayMetadata
  store_path : String

/-- Path composition `store_path / key` (spec 4.F). -/
def joinPath (p rel : String) : String := p ++ "/" ++ rel

/-- The metadata document key `ZARR_JSON` (`zarr.v3.common`). -/
def ZARR_JSON : String := "zarr.json"

/-- `AsyncArray.resize` (array.py lines 270-299): assert equal arity
(`none` on failure), delete the keys of the chunk coords in
`old ∖ new` when `delete_outside_chunks` is set, persist the replaced
metadata at `zarr.json`, and return the new instance.  `to_bytes`
abstracts `ArrayMetadata.to_bytes`, whose serialisation resize does not
inspect.  Returns the effect trace, the resulting store and the
returned instance. -/
def resize (arr : AsyncArray) (new_shape : List Nat) (delete_outside_chunks : Bool)
    (to_bytes : ArrayMetadata → Bytes) (store : Store) :
    Option (List PipelineEffect × Store × AsyncArray) :=
  if new_shape.length = arr.metadata.shape.length then
    let new_metadata := { arr.metadata with shape := new_shape }
    let chunk_shape := arr.metadata.chunk_grid.chunk_shape
    let old_chunk_coords := all_chunk_coords arr.metadata.shape chunk_shape
    let new_chunk_coords := all_chunk_coords new_shape chunk_shape
    let delfx :=
      if delete_outside_chunks then
        (old_chunk_coords.filter (fun c => decide (c ∉ new_chunk_coords))).map
          (fun c => PipelineEffect.del
            (joinPath arr.store_path (encode_chunk_key arr.metadata.chunk_key_encoding c)))
      else []
    let fx := delfx ++
      [PipelineEffect.set (joinPath arr.store_path ZARR_JSON) (to_bytes new_metadata)]
    some (fx, runStoreEffects store fx, { arr with metadata := new_metadata })
  else none

lemma runStoreEffects_del_map (keys : List String) (s : Store) (k : String) :
    runStoreEffects s (keys.map PipelineEffect.del) k =
      if k ∈ keys then none else s k := by
  induction keys generalizing s with
  | nil => simp [runStoreEffects]
  | cons k0 keys ih =>
    rw [List.map_cons, runStoreEffects, List.foldl_cons]
    have := ih (applyStoreEffect s (PipelineEffect.del k0))
    rw [runStoreEffects] at this
    rw [this]
    by_cases h1 : k ∈ keys <;> by_cases h2 : k = k0 <;>
      simp [h1, h2, applyStoreEffect, storeDelete, List.mem_cons]

/-- C7: `resize(new_shape, delete_outside_chunks := true)` with matching
arity deletes exactly the keys of chunk coords in `old ∖ new`, persists
the replaced metadata as its final store write, returns a new instance
carrying the new shape, and leaves the chunk keys present afterwards a
subset of the keys of chunk coords of the new shape (given the store
held only metadata and old-grid chunk keys before). -/
theorem resize_deletes_outside_chunks (arr : AsyncArray) (new_shape : List Nat)
    (to_bytes : ArrayMetadata → Bytes) (store : Store)
    (harity : new_shape.length = arr.metadata.shape.length) :
    ∃ fx st arr2, resize arr new_shape true to_bytes store = some (fx, st, arr2) ∧
      arr2 = { arr with metadata := { arr.metadata with shape := new_shape } } ∧
      (∀ key : String, PipelineEffect.del key ∈ fx ↔
        ∃ c, c ∈ all_chunk_coords arr.metadata.shape arr.metadata.chunk_grid.chunk_shape ∧
          c ∉ all_chunk_coords new_shape arr.metadata.chunk_grid.chunk_shape ∧
          key = joinPath arr.store_path
            (encode_chunk_key arr.metadata.chunk_key_encoding c)) ∧
      (∃ dels, fx = dels ++ [PipelineEffect.set (joinPath arr.store_path ZARR_JSON)
        (to_bytes { arr.metadata with shape := new_shape })]) ∧
      ((∀ key : String, store key ≠ none →
          key = joinPath arr.store_path ZARR_JSON ∨
          ∃ c, c ∈ all_chunk_coords arr.metadata.shape arr.metadata.chunk_grid.chunk_shape ∧
            key = joinPath arr.store_path
              (encode_chunk_key arr.metadata.chunk_key_encoding c)) →
        ∀ key : String, st key ≠ none →
          key = joinPath arr.store_path ZARR_JSON ∨
          ∃ c, c ∈ all_chunk_coords new_shape arr.metadata.chunk_grid.chunk_shape ∧
            key = joinPath arr.store_path
              (encode_chunk_key arr.metadata.chunk_key_encoding c)) := by
  have hres : resize arr new_shape true to_bytes store =
      some (((all_chunk_coords arr.metadata.shape arr.metadata.chunk_grid.chunk_shape).filter
          (fun c => decide (c ∉ all_chunk_coords new_shape
            arr.metadata.chunk_grid.chunk_shape))).map
          (fun c => PipelineEffect.del (joinPath arr.store_path
            (encode_chunk_key arr.metadata.chunk_key_encoding c))) ++
        [PipelineEffect.set (joinPath arr.store_path ZARR_JSON)
          (to_bytes { arr.metadata with shape := new_shape })],
        runStoreEffects store
          (((all_chunk_coords arr.metadata.shape arr.metadata.chunk_grid.chunk_shape).filter
            (fun c => decide (c ∉ all_chunk_coords new_shape
              arr.metadata.chunk_grid.chunk_shape))).map
            (fun c => PipelineEffect.del (joinPath arr.store_path
              (encode_chunk_key arr.metadata.chunk_key_encoding c))) ++
          [PipelineEffect.set (joinPath arr.store_path ZARR_JSON)
            (to_bytes { arr.metadata with shape := new_shape })]),
        { arr with metadata := { arr.metadata with shape := new_shape } }) := by
    rw [resize, if_pos harity]
    rfl
  refine ⟨_, _, _, hres, rfl, ?_, ⟨_, rfl⟩, ?_⟩
  · intro key
    constructor
    · intro hk
      rcases List.mem_append.mp hk with h | h
      · obtain ⟨c, hc, hck⟩ := List.mem_map.mp h
        obtain ⟨hcold, hcnew⟩ := List.mem_filter.mp hc
        refine ⟨c, hcold, of_decide_eq_true hcnew, ?_⟩
        injection hck with h
        exact h.symm
      · rw [List.mem_singleton] at h
        exact absurd h (fun hh => PipelineEffect.noConfusion hh)
    · intro ⟨c, hcold, hcnew, hck⟩
      refine List.mem_append.mpr (Or.inl ?_)
      refine List.mem_map.mpr ⟨c, List.mem_filter.mpr ⟨hcold, decide_eq_true hcnew⟩, ?_⟩
      rw [hck]
  · intro hprior key hk
    by_cases hmeta : key = joinPath arr.store_path ZARR_JSON
    · exact Or.inl hmeta
    · have hk1 : runStoreEffects store
          (((all_chunk_coords arr.metadata.shape arr.metadata.chunk_grid.chunk_shape).filter
            (fun c => decide (c ∉ all_chunk_coords new_shape
              arr.metadata.chunk_grid.chunk_shape))).map
            (fun c => PipelineEffect.del (joinPath arr.store_path
              (encode_chunk_key arr.metadata.chunk_key_encoding c)))) key ≠ none := by
        intro hnone
        apply hk
        rw [runStoreEffects, List.foldl_append, ← runStoreEffects, ← runStoreEffects]
        rw [runStoreEffects]
        simp only [List.foldl_cons, List.foldl_nil, applyStoreEffect, storeSet]
        rw [if_neg hmeta]
        exact hnone
      have hcomp : (fun c => PipelineEffect.del (joinPath arr.store_path
          (encode_chunk_key arr.metadata.chunk_key_encoding c))) =
          PipelineEffect.del ∘ (fun c => joinPath arr.store_path
            (encode_chunk_key arr.metadata.chunk_key_encoding c)) := rfl
      rw [hcomp, ← List.map_map, runStoreEffects_del_map] at hk1
      by_cases hdel : key ∈ ((all_chunk_coords arr.metadata.shape
          arr.metadata.chunk_grid.chunk_shape).filter
          (fun c => decide (c ∉ all_chunk_coords new_shape
            arr.metadata.chunk_grid.chunk_shape))).map
          (fun c => joinPath arr.store_path
            (encode_chunk_key arr.metadata.chunk_key_encoding c))
      · rw [if_pos hdel] at hk1
        exact absurd rfl hk1
      · rw [if_neg hdel] at hk1
        rcases hprior key hk1 with h | ⟨c, hcold, hck⟩
        · exact Or.inl h
        · by_cases hcnew : c ∈ all_chunk_coords new_shape arr.metadata.chunk_grid.chunk_shape
          · exact Or.inr ⟨c, hcnew, hck⟩
          · exact absurd (List.mem_map.mpr ⟨c,
              List.mem_filter.mpr ⟨hcold, decide_eq_true hcnew⟩, hck.symm⟩) hdel

/-- Flatten an array to bytes in row-major order: a concrete
serialisation used to instantiate the codec contracts. -/
def bytesOfArr (a : NDArray) : Bytes :=
  (coordsUnder a.shape).map (fun c => (a.data c).toNat)

/-- Read a flat byte string back as a one-dimensional array. -/
def arrOfBytes (b : Bytes) : NDArray :=
  ⟨[b.length], fun c => Int.ofNat (b.getD (c.headD 0) 0)⟩

/-- A concrete array-bytes codec with elementwise batch transforms and
no partial I/O. -/
def abConcrete : ArrayBytesCodec where
  resolve_metadata := id
  encode_batch := fun inp => inp.map (fun x => x.1.map bytesOfArr)
  decode_batch := fun inp => inp.map (fun x => x.1.map arrOfBytes)
  implementsPartialDecode := false
  implementsPartialEncode := false
  decode_partial_batched := fun _ _ => []
  encode_partial_batched := fun s _ => s

/-- The codec pipeline holding just `abConcrete`. -/
def pConcrete : BatchedCodecPipeline := ⟨[], abConcrete, []⟩

/-- An array-bytes codec exposing the partial-encode mixin (its partial
encode is the codec's own business; here it leaves the store as is). -/
def abPartialCodec : ArrayBytesCodec where
  resolve_metadata := id
  encode_batch := fun inp => inp.map (fun x => x.1.map bytesOfArr)
  decode_batch := fun inp => inp.map (fun x => x.1.map arrOfBytes)
  implementsPartialDecode := false
  implementsPartialEncode := true
  decode_partial_batched := fun _ _ => []
  encode_partial_batched := fun s _ => s

/-- The pipeline holding just `abPartialCodec`; it supports partial
encode. -/
def pPartialEnc : BatchedCodecPipeline := ⟨[], abPartialCodec, []⟩

lemma nonePreserving_elementwise {α β : Type} (g : α → β) :
    NonePreservingBatch (fun inp : List (Option α × ArraySpec) =>
      inp.map (fun x => x.1.map g)) := by
  intro inp
  refine ⟨List.length_map inp _, ?_⟩
  intro k o s hk
  refine ⟨o.map g, ?_, ?_⟩
  · rw [List.getElem?_map, hk]
    rfl
  · cases o <;> rfl

lemma pConcrete_encode_contract : PipelineEncodeContract pConcrete :=
  ⟨fun c hc => absurd hc (List.not_mem_nil c),
    nonePreserving_elementwise bytesOfArr,
    fun c hc => absurd hc (List.not_mem_nil c)⟩

lemma pConcrete_decode_contract : PipelineDecodeContract pConcrete :=
  ⟨fun c hc => absurd hc (List.not_mem_nil c),
    nonePreserving_elementwise arrOfBytes,
    fun c hc => absurd hc (List.not_mem_nil c)⟩

/-- A total-slice batch item over a single chunk of shape `[2]` with
fill value 0. -/
def item0 : BatchItem := ⟨"a/c/0", ⟨[2], 0, 0⟩, [(0, 2)], [(0, 2)]⟩

/-- The empty store. -/
def store0 : Store := fun _ => none

/-- The value-normalisation step of `AsyncArray.setitem` (array.py lines
243-252): a scalar passes through untouched — no dtype coercion and no
shape verification; an array must match the indexer shape, the dtype
cast being the identity in this integer-element model. -/
def normalize_setitem_value (value : Value) (sel_shape : List Nat) : Option Value :=
  match value with
  | .scalar v => some (.scalar v)
  | .arr a => if a.shape = sel_shape then some (.arr a) else none

/-- C8 (code bug): `setitem` passes a scalar value through
normalisation untouched, but the dispatched `write_batched` then
evaluates `value[out_selection]`, which raises a `TypeError` on a scalar
(`none` in this model) — the write does not complete, against the
claim.  Failing input: writing scalar 5 over the full slice of a
one-chunk array of shape `[2]`. -/
theorem scalar_setitem_write_raises :
    normalize_setitem_value (Value.scalar 5) [2] = some (Value.scalar 5) ∧
    pConcrete.write_batched [item0] (Value.scalar 5) store0 = none := by
  constructor
  · rfl
  · rfl

/-- Witness for C4 at a concrete input: an all-fill full-chunk write
leaves the chunk key absent from the store. -/
theorem allfill_chunk_elided_and_deleted_witness :
    ∃ fx st, pConcrete.write_batched [item0] (Value.arr (fillArray [2] 0)) store0 =
      some (fx, st) ∧ st item0.store_path = none := by
  have h := allfill_chunk_elided_and_deleted pConcrete [item0] (fillArray [2] 0) store0
    pConcrete_encode_contract [getSel (fillArray [2] 0) [(0, 2)]] rfl 0 item0 rfl
    (getSel (fillArray [2] 0) [(0, 2)]) rfl
  refine (h.1 (by decide)).2.2.2 rfl ?_
  intro j itemj hj hjj
  cases j with
  | zero => exact absurd rfl hj
  | succ n =>
    rw [List.getElem?_cons_succ] at hjj
    exact absurd hjj (by simp)

/-- Witness for C5 at a concrete input: a total-slice item issues no
get and decodes to an absent chunk. -/
theorem write_gets_iff_not_total_slice_witness :
    ((BatchedCodecPipeline.write_read_results [item0] store0).map Prod.snd).flatten =
      ([] : List PipelineEffect) ∧
    (pConcrete.write_decoded [item0] store0)[0]? = some none := by
  have h := write_gets_iff_not_total_slice pConcrete [item0] store0 pConcrete_decode_contract
  refine ⟨?_, ((h.2 0 item0 rfl).2 (by decide)).2⟩
  rw [h.1]
  rfl

/-- Witness for C6 at a concrete input: reading a single absent chunk
fills the output with the fill value. -/
theorem read_present_slice_absent_fill_witness :
    (pConcrete.read_batched [item0] (fillArray [2] 9) store0).2.data [0] = 0 := by
  have hdisj : ∀ (i j : Nat) (itemi itemj : BatchItem), i ≠ j →
      ([item0] : List BatchItem)[i]? = some itemi →
      ([item0] : List BatchItem)[j]? = some itemj →
      ∀ c : Coord,
        ¬(inSel itemi.out_selection c = true ∧ inSel itemj.out_selection c = true) := by
    intro i j itemi itemj hij hi hj c
    have hi0 : i = 0 := by
      cases i with
      | zero => rfl
      | succ n =>
        rw [List.getElem?_cons_succ] at hi
        exact absurd hi (by simp)
    have hj0 : j = 0 := by
      cases j with
      | zero => rfl
      | succ n =>
        rw [List.getElem?_cons_succ] at hj
        exact absurd hj (by simp)
    exact absurd (hi0.trans hj0.symm) hij
  have h := read_present_slice_absent_fill pConcrete [item0] (fillArray [2] 9) store0 rfl
    pConcrete_decode_contract hdisj 0 item0 rfl [0] (by decide)
  exact h.2 rfl

/-- Witness for C9 at a concrete input: a partial-encode pipeline makes
the single dispatch and performs no store operation of its own. -/
theorem partial_encode_single_dispatch_witness :
    pPartialEnc.write_batched [item0] (Value.arr (fillArray [2] 1)) store0 =
      some ([PipelineEffect.partialEncodeDispatch
          [(item0.store_path, getSel (fillArray [2] 1) item0.out_selection,
            item0.chunk_selection, item0.chunk_spec)]], store0) :=
  partial_encode_single_dispatch pPartialEnc [item0] (fillArray [2] 1) store0 rfl

/-- The slash separator. -/
def sepSlash : String := "/"

/-- A one-dimensional array of shape `[4]`, chunk shape `[2]`, default
chunk-key encoding with separator `/`, stored under prefix `arr`. -/
def arrW : AsyncArray := ⟨⟨[4], ⟨[2]⟩, ChunkKeyEncoding.defaultEnc sepSlash, 0⟩, "arr"⟩

/-- The key of chunk coord `[0]` of `arrW`. -/
def keyC0 : String := "arr/c/0"

/-- The key of chunk coord `[1]` of `arrW`. -/
def keyC1 : String := "arr/c/1"

/-- The metadata key of `arrW`. -/
def keyMeta : String := "arr/zarr.json"

/-- A store holding only the chunk key of chunk coord `[1]` of `arrW`. -/
def store1 : Store := fun k => if k = keyC1 then some [7] else none

/-- Witness for C7 at a concrete input: shrinking `[4]` to `[2]` with
chunk shape `[2]` deletes the key of chunk coord `[1]` and leaves only
the metadata key or the key of chunk coord `[0]` possible. -/
theorem resize_deletes_outside_chunks_witness :
    ∃ fx st arr2, resize arrW [2] true (fun _ => []) store1 = some (fx, st, arr2) ∧
      arr2.metadata.shape = [2] ∧
      PipelineEffect.del keyC1 ∈ fx ∧
      ∀ key : String, st key ≠ none → key = keyMeta ∨ key = keyC0 := by
  obtain ⟨fx, st, arr2, hres, harr2, hdel, hset, hsub⟩ :=
    resize_deletes_outside_chunks arrW [2] (fun _ => []) store1 rfl
  refine ⟨fx, st, arr2, hres, by rw [harr2], ?_, ?_⟩
  · refine (hdel keyC1).mpr ⟨[1], ?_, ?_, ?_⟩
    · decide
    · decide
    · decide
  · have hprior : ∀ key : String, store1 key ≠ none →
        key = joinPath arrW.store_path ZARR_JSON ∨
        ∃ c, c ∈ all_chunk_coords arrW.metadata.shape arrW.metadata.chunk_grid.chunk_shape ∧
          key = joinPath arrW.store_path
            (encode_chunk_key arrW.metadata.chunk_key_encoding c) := by
      intro key2 hk2
      by_cases h : key2 = keyC1
      · right
        refine ⟨[1], by decide, ?_⟩
        rw [h]
        decide
      · exfalso
        apply hk2
        simp [store1, h]
    intro key hk
    rcases hsub hprior key hk with h | ⟨c, hc, hckey⟩
    · left
      rw [h]
      decide
    · right
      have hc0 : c = [0] := List.mem_singleton.mp hc
      subst hc0
      rw [hckey]
      decide

end Zarr
